import Mathlib

/-!
# Verification of the tantivy core specification

This file gives a shallow embedding, in Lean 4, of the parts of the
tantivy search-engine core that the specification claims talk about:

* the canonical `Term` byte encoding (`src/schema/term.rs`),
* the JSON term writer (`src/indexer/json_term_writer.rs`),
* the multi-valued offset index (`src/columnar/src/column_index/multivalued_index.rs`),
* the arena hash map (`src/stacker/src/arena_hashmap.rs`).

Machine integers are modelled as `Nat`/`Int` with explicit bounds, byte
strings as `List Nat` (each element `< 256`), and fallible or panicking
code as `Option`-returning functions (`none` models a panic or an
out-of-contract memory access).  Loops whose termination depends on
runtime data are given explicit fuel, always called with enough fuel for
the in-contract executions; running out of fuel maps to `none`.
-/

namespace Tantivy

/-! ## Big-endian byte encoding

`beBytes w v` is `v.to_be_bytes()` for a `w`-byte unsigned integer:
most-significant byte first. -/

def beBytes : Nat → Nat → List Nat
  | 0, _ => []
  | w + 1, v => v / 256 ^ w :: beBytes w (v % 256 ^ w)

/-- `u64::from_be_bytes` (on an arbitrary-length big-endian byte list). -/
def fromBeBytes (bs : List Nat) : Nat :=
  bs.foldl (fun acc b => acc * 256 + b) 0

/-- Strict lexicographic order on byte strings: the order used by Rust's
`cmp` on `&[u8]`, which compares element-wise and treats a strict prefix
as smaller. -/
def bytesLt (xs ys : List Nat) : Prop :=
  List.Lex (· < ·) xs ys

instance (xs ys : List Nat) : Decidable (bytesLt xs ys) := by
  unfold bytesLt; infer_instance

/-! ## Field types and codes

The `Type` enum of `src/schema/*`.  Its `to_code` values are pinned for
`Str`, `U64`, `I64`, `F64`, `Bool` and `Json` by the byte-level tests in
`src/indexer/json_term_writer.rs` (`b"...jcolor\x00u..."` etc.).
Modelled from the spec: the file `schema/type.rs` that declares the enum
itself is not part of the sample; the remaining codes (`Date`, `Facet`,
`Bytes`, `IpAddr`) are taken from the spec's type list and are not used
by any byte-exact claim. -/

inductive FieldType where
  | str
  | u64
  | i64
  | f64
  | bool
  | date
  | facet
  | bytes
  | json
  | ipAddr
deriving DecidableEq

def FieldType.toCode : FieldType → Nat
  | .str => 115      -- b's'
  | .u64 => 117      -- b'u'
  | .i64 => 105      -- b'i'
  | .f64 => 102      -- b'f'
  | .bool => 111     -- b'o'
  | .date => 100     -- b'd'
  | .facet => 104    -- b'h'
  | .bytes => 98     -- b'b'
  | .json => 106     -- b'j'
  | .ipAddr => 112   -- b'p'

/-- `JSON_PATH_SEGMENT_SEP` (`src/schema/term.rs`). -/
def JSON_PATH_SEGMENT_SEP : Nat := 1

/-- `JSON_END_OF_PATH` (`src/schema/term.rs`). -/
def JSON_END_OF_PATH : Nat := 0

/-! ## Order-preserving `u64` projections of fast values

Modelled from the spec: the `FastValue`/`MonotonicallyMappableToU64`
implementations live in crates outside the sample.  The spec fixes them:
"Numeric types encode values as 8-byte big-endian of an order-preserving
`u64` projection (i64: flip sign bit; bool: 0/1; date: truncated
microseconds)". -/

/-- `common::i64_to_u64`: flip the sign bit of the two's-complement
representation, i.e. add `2^63` (for `v ∈ [-2^63, 2^63)`). -/
def i64ToU64 (v : Int) : Nat :=
  (v + 2 ^ 63).toNat

/-- `u64` maps to itself. -/
def u64ToU64 (v : Nat) : Nat := v

/-- `bool` maps to 0/1. -/
def boolToU64 (b : Bool) : Nat := if b then 1 else 0

/-! ## DateTime

`DateTime` (`src/lib.rs`) wraps a microsecond UNIX timestamp (an `i64`).
We carry the timestamp as an unbounded `Int`; claims add the `i64`
range hypotheses where they matter. -/

/-- `DateTime::truncate(DatePrecision::Seconds)` (`src/lib.rs` lines
246-256): `(timestamp_micros / 1_000_000) * 1_000_000` with Rust's
truncating (toward-zero) `i64` division. -/
def truncateSeconds (timestampMicros : Int) : Int :=
  timestampMicros.tdiv 1000000 * 1000000

/-- `DateTime`'s `FastValue` projection: `i64_to_u64` of the microsecond
timestamp.  Modelled from the spec ("date: truncated microseconds" as an
order-preserving u64 projection); the truncation itself is applied by the
callers (`Term::from_field_date`, `JsonTermWriter::set_fast_value`). -/
def dateToU64 (timestampMicros : Int) : Nat :=
  i64ToU64 timestampMicros

/-! ## Term construction (`src/schema/term.rs`)

A `Term` wraps a `Vec<u8>`: 4 bytes of big-endian field id, one type
code byte, then the value bytes.  We model the buffer as `List Nat`. -/

/-- The number of metadata bytes (`TERM_METADATA_LENGTH`). -/
def TERM_METADATA_LENGTH : Nat := 5

/-- `Term::with_type_and_field` followed by no value: 4-byte BE field id
plus the type code (the 8-byte capacity reservation has no observable
effect). -/
def termWithTypeAndField (typ : FieldType) (field : Nat) : List Nat :=
  beBytes 4 field ++ [typ.toCode]

/-- `Term::truncate_value_bytes` (`self.0.truncate(len + TERM_METADATA_LENGTH)`). -/
def termTruncateValueBytes (term : List Nat) (len : Nat) : List Nat :=
  term.take (len + TERM_METADATA_LENGTH)

/-- `Term::set_fast_value`: `set_bytes(val.to_u64().to_be_bytes())`, i.e.
truncate the value bytes to zero and append the 8-byte BE projection. -/
def termSetFastValueBytes (term : List Nat) (valU64 : Nat) : List Nat :=
  termTruncateValueBytes term 0 ++ beBytes 8 valU64

/-- `Term::from_field_u64` = `from_fast_value(field, &val)`:
metadata then the 8-byte BE of the (identity) u64 projection. -/
def fromFieldU64 (field : Nat) (val : Nat) : List Nat :=
  termSetFastValueBytes (termWithTypeAndField .u64 field) (u64ToU64 val)

/-- `Term::from_field_i64`. -/
def fromFieldI64 (field : Nat) (val : Int) : List Nat :=
  termSetFastValueBytes (termWithTypeAndField .i64 field) (i64ToU64 val)

/-- `Term::from_field_date` (`src/schema/term.rs` lines 101-104):
`from_fast_value(field, &val.truncate(DatePrecision::Seconds))`. -/
def fromFieldDate (field : Nat) (timestampMicros : Int) : List Nat :=
  termSetFastValueBytes (termWithTypeAndField .date field)
    (dateToU64 (truncateSeconds timestampMicros))

/-- `Term::value_bytes`: everything after the 5 metadata bytes. -/
def termValueBytes (term : List Nat) : List Nat :=
  term.drop TERM_METADATA_LENGTH

/-- `Term::typ_code`: byte 4 of the representation (`none` models the
`expect` panic on a too-short buffer). -/
def termTypCode (term : List Nat) : Option Nat :=
  term[4]?

/-- `Term::as_u64` via `get_fast_type::<u64>` (`src/schema/term.rs`
lines 281-297): check the type code, check the value is exactly 8
bytes, then `u64::from_be_bytes`. -/
def termAsU64 (term : List Nat) : Option Nat :=
  match termTypCode term with
  | none => none
  | some code =>
    if code = FieldType.u64.toCode then
      if (termValueBytes term).length = 8 then
        some (fromBeBytes (termValueBytes term))
      else none
    else none

/-! ## JSON term writer (`src/indexer/json_term_writer.rs`)

`JsonTermWriter` keeps the full term buffer plus a stack of byte
offsets (into the *value* bytes) marking the end of each enclosing path
segment.  We model the stack with its *top* at the head of the list
(Rust pushes/pops at the end of a `Vec`). -/

structure JsonTermWriter where
  term : List Nat
  pathStack : List Nat
  expandDotsEnabled : Bool
deriving DecidableEq

namespace JsonTermWriter

/-- `term.len_bytes()`: number of value bytes. -/
def lenBytes (w : JsonTermWriter) : Nat :=
  w.term.length - TERM_METADATA_LENGTH

/-- The term's value bytes. -/
def valueBytes (w : JsonTermWriter) : List Nat :=
  termValueBytes w.term

/-- `JsonTermWriter::wrap`: `clear_with_type(Type::Json)` (truncate the
value bytes and overwrite the type code) and start the path stack at
offset 0. -/
def wrap (term : List Nat) (expandDotsEnabled : Bool) : JsonTermWriter :=
  { term := (termTruncateValueBytes term 0).set 4 FieldType.json.toCode
    pathStack := [0]
    expandDotsEnabled := expandDotsEnabled }

/-- `trim_to_end_of_path`: truncate the value bytes to the offset on the
top of the path stack. -/
def trimToEndOfPath (w : JsonTermWriter) : JsonTermWriter :=
  { w with term := termTruncateValueBytes w.term (w.pathStack.headD 0) }

/-- Overwrite the last byte of the buffer (`buffer[buffer_len - 1] = b`). -/
def setLastByte (bs : List Nat) (b : Nat) : List Nat :=
  bs.set (bs.length - 1) b

/-- `close_path_and_set_type`: trim to the end of the path, overwrite the
trailing separator with `JSON_END_OF_PATH`, append the type code. -/
def closePathAndSetType (w : JsonTermWriter) (typ : FieldType) : JsonTermWriter :=
  let w := w.trimToEndOfPath
  { w with term := setLastByte w.term JSON_END_OF_PATH ++ [typ.toCode] }

/-- The dot-expansion rewrite: replace every `b'.'` (46) by
`JSON_PATH_SEGMENT_SEP`. -/
def expandDots (segment : List Nat) : List Nat :=
  segment.map fun b => if b = 46 then JSON_PATH_SEGMENT_SEP else b

/-- The effective segment bytes appended by `push_path_segment`. -/
def effSeg (w : JsonTermWriter) (s : List Nat) : List Nat :=
  if w.expandDotsEnabled ∧ 46 ∈ s then expandDots s else s

/-- `push_path_segment` (`src/indexer/json_term_writer.rs` lines
337-361): trim to the end of the path; if there is an enclosing segment,
overwrite the trailing byte with the segment separator; append the
segment bytes (with dots expanded when enabled); append a separator; and
push the new end-of-path offset. -/
def pushPathSegment (w : JsonTermWriter) (segment : List Nat) : JsonTermWriter :=
  let w := w.trimToEndOfPath
  let term₁ := if w.pathStack.length > 1 then setLastByte w.term JSON_PATH_SEGMENT_SEP
               else w.term
  let seg := if w.expandDotsEnabled ∧ 46 ∈ segment then expandDots segment else segment
  let term₂ := term₁ ++ seg ++ [JSON_PATH_SEGMENT_SEP]
  { w with
    term := term₂
    pathStack := (term₂.length - TERM_METADATA_LENGTH) :: w.pathStack }

/-- `pop_path_segment`: pop the stack (the source `assert!`s that the
stack stays non-empty — `none` models that panic) and trim. -/
def popPathSegment (w : JsonTermWriter) : Option JsonTermWriter :=
  match w.pathStack with
  | [] => none
  | _ :: rest =>
    match rest with
    | [] => none
    | _ => some (trimToEndOfPath { w with pathStack := rest })

/-- The fast values a JSON leaf can hold (`f64` leaves exist in the
source but no claim mentions them, floating point being out of scope). -/
inductive FastVal where
  | u64 (v : Nat)
  | i64 (v : Int)
  | bool (b : Bool)
  | date (timestampMicros : Int)

def FastVal.toType : FastVal → FieldType
  | .u64 _ => .u64
  | .i64 _ => .i64
  | .bool _ => .bool
  | .date _ => .date

def FastVal.toU64 : FastVal → Nat
  | .u64 v => u64ToU64 v
  | .i64 v => i64ToU64 v
  | .bool b => boolToU64 b
  | .date t => dateToU64 t

/-- `DateTime::from_u64` after `to_u64` is the identity on the
microsecond timestamp, so the `Date` branch of `set_fast_value`
truncates the original timestamp to seconds. -/
def FastVal.setFastValueU64 : FastVal → Nat
  | .date t => dateToU64 (truncateSeconds t)
  | v => v.toU64

/-- `JsonTermWriter::set_fast_value` (lines 376-387): close the path
with the leaf type code, then append the 8-byte BE projection — with the
`Date` special case truncating to seconds precision. -/
def setFastValue (w : JsonTermWriter) (val : FastVal) : JsonTermWriter :=
  let w := w.closePathAndSetType val.toType
  { w with term := w.term ++ beBytes 8 val.setFastValueU64 }

/-- The `path()` test helper (lines 371-374): the value bytes up to (and
excluding) the trailing separator of the current path. -/
def path (w : JsonTermWriter) : List Nat :=
  w.valueBytes.take (w.pathStack.headD 1 - 1)

/-- Well-formedness of a writer state, maintained by every constructor
and operation: the path stack is never empty (`wrap` seeds it with `0`)
and the top end-of-path offset lies within the value bytes. -/
def Wf (w : JsonTermWriter) : Prop :=
  w.pathStack ≠ [] ∧ w.pathStack.headD 0 + TERM_METADATA_LENGTH ≤ w.term.length

instance (w : JsonTermWriter) : Decidable w.Wf := by
  unfold Wf; infer_instance

end JsonTermWriter

/-! ## `split_json_path` (`src/indexer/json_term_writer.rs` lines 271-296) -/

/-- The character-by-character loop of `split_json_path`: `escapedState`
is the `escaped_state` flag, `buffer` the segment being accumulated. -/
def splitJsonPathGo : List Char → Bool → List Char → List (List Char)
  | [], _, buffer => [buffer]
  | c :: rest, true, buffer => splitJsonPathGo rest false (buffer ++ [c])
  | c :: rest, false, buffer =>
    if c = '\\' then splitJsonPathGo rest true buffer
    else if c = '.' then buffer :: splitJsonPathGo rest false []
    else splitJsonPathGo rest false (buffer ++ [c])

/-- `split_json_path`, on strings. -/
def splitJsonPath (jsonPath : String) : List String :=
  (splitJsonPathGo jsonPath.data false []).map fun cs => String.mk cs

/-- Spec-side escaping (from the claim's words): put a backslash before
every `.` and every `\`, so that the escaped string denotes the literal
segment. -/
def escapeJsonPathChars : List Char → List Char
  | [] => []
  | c :: rest =>
    if c = '.' ∨ c = '\\' then '\\' :: c :: escapeJsonPathChars rest
    else c :: escapeJsonPathChars rest

def escapeJsonPath (s : String) : String :=
  String.mk (escapeJsonPathChars s.data)

/-- Prepend a character to the first segment of a segment list. -/
def consSeg (c : Char) : List (List Char) → List (List Char)
  | [] => [[c]]
  | s :: ss => (c :: s) :: ss

/-- Prepend an already-accumulated buffer to the first segment. -/
def prependSeg (buffer : List Char) : List (List Char) → List (List Char)
  | [] => [buffer]
  | s :: ss => (buffer ++ s) :: ss

/-- Modelled from the spec: the claim's reading of the splitter, as a
reference function.  A backslash escapes the character after it — that
character goes literally into the current segment, so a backslash can
only reach the output when itself escaped; every unescaped `.` cuts a
segment (leading, trailing and doubled dots cut empty segments); any
other character is literal; a trailing backslash escapes nothing. -/
def splitJsonPathSpec : List Char → List (List Char)
  | [] => [[]]
  | c :: rest =>
    if c = '\\' then
      match rest with
      | [] => [[]]
      | c2 :: rest2 => consSeg c2 (splitJsonPathSpec rest2)
    else if c = '.' then [] :: splitJsonPathSpec rest
    else consSeg c (splitJsonPathSpec rest)

/-! ## Multi-valued offset index
(`src/columnar/src/column_index/multivalued_index.rs`)

The `start_index_column` is modelled by its list of offsets;
`get_val i` is `offsets[i]?` and an out-of-bounds access — out of the
column's contract — maps to `none` (a panic). -/

/-- The inner `loop` of `select_batch_in_place`: advance `cur_doc` until
`offsets[cur_doc + 1] > pos`, returning the doc that owns rank `pos`.
Fuel bounds the scan; callers pass `offsets.length`, enough for every
in-bounds execution. -/
def selectAdvance (offsets : List Nat) (pos : Nat) : Nat → Nat → Option Nat
  | 0, _ => none
  | fuel + 1, curDoc =>
    match offsets[curDoc + 1]? with
    | none => none
    | some endOff =>
      if endOff > pos then some curDoc
      else selectAdvance offsets pos fuel (curDoc + 1)

/-- The outer `for i in 0..ranks.len()` loop of `select_batch_in_place`,
with the literal in-place writes `ranks[write_doc_pos] = cur_doc`.
Returns the final buffer and `write_doc_pos`. -/
def selectOuter (offsets : List Nat) :
    Nat → List Nat → Nat → Nat → Nat → Option Nat → Option (List Nat × Nat)
  | 0, ranks, i, writePos, _, _ =>
    if i < ranks.length then none else some (ranks, writePos)
  | fuel + 1, ranks, i, writePos, curDoc, lastDoc =>
    if h : i < ranks.length then
      match selectAdvance offsets (ranks.get ⟨i, h⟩) offsets.length curDoc with
      | none => none
      | some d =>
        selectOuter offsets fuel (ranks.set writePos d) (i + 1)
          (writePos + (if lastDoc = some d then 0 else 1)) d (some d)
    else some (ranks, writePos)

/-- `MultiValueIndex::select_batch_in_place` (lines 79-103).  `none`
models a panic: either the `assert!(offsets[row_start] ≤ ranks[0])`
failing, or an out-of-bounds column access inside the scan. -/
def selectBatchInPlace (offsets : List Nat) (rowStart : Nat) (ranks : List Nat) :
    Option (List Nat) :=
  if ranks.isEmpty then some ranks
  else
    match offsets[rowStart]? with
    | none => none
    | some firstOff =>
      if firstOff ≤ ranks.headD 0 then
        match selectOuter offsets ranks.length ranks 0 0 rowStart none with
        | none => none
        | some (ranks', writePos) => some (ranks'.take writePos)
      else none

/-! Spec-side definitions for the `select_batch_in_place` claim, written
from the claim's words (refinement targets, not source translations). -/

/-- Deduplicate consecutive equal elements, tracking the last element
seen (`None` initially). -/
def dedupFrom : Option Nat → List Nat → List Nat
  | _, [] => []
  | last, a :: rest =>
    if last = some a then dedupFrom last rest
    else a :: dedupFrom (some a) rest

/-- `dedup_consecutive` from the claim. -/
def dedupConsecutive (l : List Nat) : List Nat :=
  dedupFrom none l

/-- The "last element seen" state of `dedupFrom` after processing `xs`
starting from state `l`. -/
def lastState (l : Option Nat) (xs : List Nat) : Option Nat :=
  match xs.getLast? with
  | some a => some a
  | none => l

/-- Bounded search for the least `d ≥ d0` with `r < offsets[d + 1]`. -/
def rankToDocGo (offsets : List Nat) (r : Nat) : Nat → Nat → Nat
  | 0, d => d
  | fuel + 1, d =>
    if r < offsets.getD (d + 1) 0 then d
    else rankToDocGo offsets r fuel (d + 1)

/-- `rank_to_doc` from the claim: the doc `d ≥ doc_start` owning value
rank `r`, i.e. (under the monotonicity and range hypotheses of the
claim) the unique `d ≥ doc_start` with `offsets[d] ≤ r < offsets[d+1]`. -/
def rankToDoc (offsets : List Nat) (docStart r : Nat) : Nat :=
  rankToDocGo offsets r offsets.length docStart

/-! ## Arena hash map (`src/stacker/src/arena_hashmap.rs`)

The memory arena stores, for each inserted key, an inline cell
`[key_len: u16 | key bytes | value]`; buckets hold the cell's address.
We model the arena at cell granularity: `arena : List (List Nat × V)`,
an `Addr` being an index into it.  The table is a fixed-size array of
nullable buckets, modelled as a function out of `Nat` together with its
size (`KeyValue::is_empty`, the null-address sentinel, becomes
`Option`).  The hash function (the external `murmurhash2` crate) is a
parameter. -/

structure KeyValue where
  keyValueAddr : Nat
  hash : Nat
  unorderedId : Nat
deriving DecidableEq

structure ArenaHashMap (V : Type) where
  tableSize : Nat
  table : Nat → Option KeyValue
  arena : List (List Nat × V)
  mask : Nat
  occupied : List Nat
  len : Nat

/-- `QuadraticProbing::next_probe` after `i` increments:
`(hash + i) & mask`. -/
def probePos (hash mask i : Nat) : Nat :=
  (hash + i) &&& mask

/-- Floor of `log₂`, by structural recursion on a fuel bound (so that it
evaluates inside the kernel; `n` itself is always enough fuel). -/
def floorLog2Go : Nat → Nat → Nat
  | 0, _ => 0
  | fuel + 1, n => if n < 2 then 0 else floorLog2Go fuel (n / 2) + 1

def floorLog2 (n : Nat) : Nat :=
  floorLog2Go n n

/-- `compute_previous_power_of_two` (for `n > 0`): `1 << (63 - lz(n))`,
the greatest power of two `≤ n`. -/
def computePreviousPowerOfTwo (n : Nat) : Nat :=
  2 ^ floorLog2 n

namespace ArenaHashMap

variable {V : Type}

/-- `ArenaHashMap::new(table_size)` (requires `table_size > 0`). -/
def new (tableSize : Nat) : ArenaHashMap V :=
  let sz := computePreviousPowerOfTwo tableSize
  { tableSize := sz
    table := fun _ => none
    arena := []
    mask := sz - 1
    occupied := []
    len := 0 }

/-- `is_saturated`: `self.table.len() < self.occupied.len() * 3`. -/
def isSaturated (s : ArenaHashMap V) : Prop :=
  s.tableSize < s.occupied.length * 3

instance (s : ArenaHashMap V) : Decidable s.isSaturated := by
  unfold isSaturated; infer_instance

/-- `get_value_addr_if_key_match`: read the cell at `addr`, compare the
stored key bytes with the target, and return the value address on a
match.  A dangling address (never produced by the map itself) also
yields `none`. -/
def getValueAddrIfKeyMatch (arena : List (List Nat × V)) (targetKey : List Nat)
    (addr : Nat) : Option Nat :=
  match arena[addr]? with
  | none => none
  | some cell => if cell.1 = targetKey then some addr else none

/-- Result of probing for a key: the first empty bucket, or the bucket
(and value address) of a matching entry. -/
inductive ProbeResult where
  | empty (bucket : Nat)
  | found (bucket : Nat) (kv : KeyValue) (valAddr : Nat)

/-- The probe loop shared by `get` and `mutate_or_create` (the two
loops in the source are term-for-term identical up to what they do once
they stop): starting after `i` probes, keep probing until an empty
bucket or an entry with matching hash and matching key bytes.  `fuel`
bounds the loop; `tableSize` is always enough in contract. -/
def probeFind (arena : List (List Nat × V)) (table : Nat → Option KeyValue)
    (mask : Nat) (key : List Nat) (hash : Nat) : Nat → Nat → Option ProbeResult
  | 0, _ => none
  | fuel + 1, i =>
    let bucket := probePos hash mask (i + 1)
    match table bucket with
    | none => some (.empty bucket)
    | some kv =>
      if kv.hash = hash then
        match getValueAddrIfKeyMatch arena key kv.keyValueAddr with
        | some valAddr => some (.found bucket kv valAddr)
        | none => probeFind arena table mask key hash fuel (i + 1)
      else probeFind arena table mask key hash fuel (i + 1)

/-- `ArenaHashMap::get` (lines 213-229).  The outer `Option` is the
fuel/termination guard (`none` can only arise out of contract); the
inner one is the source's return value. -/
def get (hashFn : List Nat → Nat) (s : ArenaHashMap V) (key : List Nat) :
    Option (Option V) :=
  match probeFind s.arena s.table s.mask key (hashFn key) s.tableSize 0 with
  | none => none
  | some (.empty _) => some none
  | some (.found _ _ valAddr) =>
    match s.arena[valAddr]? with
    | none => none
    | some cell => some (some cell.2)

/-- The probe loop of `resize`: find the first empty bucket for a
rehashed entry. -/
def findEmptySlot (table : Nat → Option KeyValue) (mask hash : Nat) :
    Nat → Nat → Option Nat
  | 0, _ => none
  | fuel + 1, i =>
    let bucket := probePos hash mask (i + 1)
    match table bucket with
    | none => some bucket
    | some _ => findEmptySlot table mask hash fuel (i + 1)

/-- The rehash loop of `resize`: walk `occupied` in order, move each
entry to its first empty probe position in the new table, and rebuild
the `occupied` vector (the source updates it in place, preserving
order). -/
def rehashAll (oldTable : Nat → Option KeyValue) (newSize mask : Nat) :
    List Nat → (Nat → Option KeyValue) → Option ((Nat → Option KeyValue) × List Nat)
  | [], table => some (table, [])
  | oldPos :: rest, table =>
    match oldTable oldPos with
    | none => none
    | some kv =>
      match findEmptySlot table mask kv.hash newSize 0 with
      | none => none
      | some bucket =>
        match rehashAll oldTable newSize mask rest
            (fun b => if b = bucket then some kv else table b) with
        | none => none
        | some (table', occ') => some (table', bucket :: occ')

/-- `resize` (lines 192-210): double the table, rehash every occupied
bucket. -/
def resize (s : ArenaHashMap V) : Option (ArenaHashMap V) :=
  let newSize := s.tableSize * 2
  let mask := newSize - 1
  match rehashAll s.table newSize mask s.occupied (fun _ => none) with
  | none => none
  | some (table', occ') =>
    some { s with tableSize := newSize, table := table', mask := mask, occupied := occ' }

/-- `set_bucket` folded into the insert branch of `mutate_or_create`
(lines 241-279): on an empty bucket invoke `updater(None)`, append the
inline `[len | key | value]` cell to the arena, record the bucket in
`occupied`, assign the next dense `unordered_id`; on a match invoke
`updater(Some(prev))` and overwrite the value in place. -/
def mutateOrCreate (hashFn : List Nat → Nat) (s : ArenaHashMap V)
    (key : List Nat) (updater : Option V → V) : Option (ArenaHashMap V × Nat) :=
  match (if s.isSaturated then s.resize else some s) with
  | none => none
  | some s₁ =>
    let hash := hashFn key
    match probeFind s₁.arena s₁.table s₁.mask key hash s₁.tableSize 0 with
    | none => none
    | some (.empty bucket) =>
      let val := updater none
      let keyAddr := s₁.arena.length
      let unorderedId := s₁.len
      some ({ s₁ with
                arena := s₁.arena ++ [(key, val)]
                occupied := s₁.occupied ++ [bucket]
                len := s₁.len + 1
                table := fun b =>
                  if b = bucket then some ⟨keyAddr, hash, unorderedId⟩ else s₁.table b },
            unorderedId)
    | some (.found _ kv valAddr) =>
      match s₁.arena[valAddr]? with
      | none => none
      | some cell =>
        let newV := updater (some cell.2)
        some ({ s₁ with arena := s₁.arena.set valAddr (cell.1, newV) }, kv.unorderedId)

/-- Run a sequence of `mutate_or_create` calls, collecting the returned
`unordered_id`s. -/
def runOps (hashFn : List Nat → Nat) :
    ArenaHashMap V → List (List Nat × (Option V → V)) → Option (ArenaHashMap V × List Nat)
  | s, [] => some (s, [])
  | s, (key, updater) :: rest =>
    match mutateOrCreate hashFn s key updater with
    | none => none
    | some (s', id) =>
      match runOps hashFn s' rest with
      | none => none
      | some (s'', ids) => some (s'', id :: ids)

/-- Findability invariant: bucket `b` is reached from hash `h` by the
probe sequence within `size` steps, every earlier probe position being
occupied (so neither `get` nor `mutate_or_create` can stop early at an
empty bucket). -/
def ReachInv (table : Nat → Option KeyValue) (size mask h b : Nat) : Prop :=
  ∃ j, 1 ≤ j ∧ j ≤ size ∧ probePos h mask j = b
    ∧ ∀ j', 1 ≤ j' → j' < j → table (probePos h mask j') ≠ none

/-- The probe loop stops at step `j`: the bucket there is either empty
or holds an entry with matching hash and matching key bytes. -/
def StopAt {V : Type} (arena : List (List Nat × V)) (table : Nat → Option KeyValue)
    (mask : Nat) (key : List Nat) (h j : Nat) : Prop :=
  table (probePos h mask j) = none
  ∨ ∃ kv va, table (probePos h mask j) = some kv ∧ kv.hash = h
      ∧ getValueAddrIfKeyMatch arena key kv.keyValueAddr = some va

/-- Coupling invariant between an `ArenaHashMap` and the abstract
association list `m` (in insertion order; a key's `unordered_id` and its
arena cell address are both its index in `m`, since `mutate_or_create`
allocates exactly one cell per fresh key). -/
def Inv (hashFn : List Nat → Nat) (s : ArenaHashMap V) (m : List (List Nat × V)) : Prop :=
  ∃ bpos : Nat → Nat,
    (∃ k, s.tableSize = 2 ^ k)
    ∧ s.mask = s.tableSize - 1
    ∧ s.len = m.length
    ∧ m.length ≤ s.tableSize
    ∧ s.occupied = (List.range m.length).map bpos
    ∧ (∀ i, i < m.length → bpos i < s.tableSize)
    ∧ (∀ i j, i < m.length → j < m.length → bpos i = bpos j → i = j)
    ∧ (∀ (i : Nat) (e : List Nat × V), m[i]? = some e →
        s.table (bpos i) = some ⟨i, hashFn e.1, i⟩)
    ∧ (∀ (i : Nat) (e : List Nat × V), m[i]? = some e →
        ReachInv s.table s.tableSize s.mask (hashFn e.1) (bpos i))
    ∧ (∀ b, (∀ i, i < m.length → bpos i ≠ b) → s.table b = none)
    ∧ s.arena.length = m.length
    ∧ (∀ (i : Nat) (e : List Nat × V), m[i]? = some e → s.arena[i]? = some e)
    ∧ (m.map Prod.fst).Nodup

end ArenaHashMap

/-! Spec-side model of the hash map, from the claim's words: an
association list in insertion order; a key's `unordered_id` is its
position in that list. -/

/-- One `mutate_or_create` on the abstract model: a fresh key invokes
`updater none`, is appended, and gets id = number of distinct keys
inserted before; an existing key invokes `updater (some current)`, is
overwritten in place, and keeps its original id. -/
def modelMutate {V : Type} :
    List (List Nat × V) → List Nat → (Option V → V) → List (List Nat × V) × Nat
  | [], key, updater => ([(key, updater none)], 0)
  | e :: rest, key, updater =>
    if e.1 = key then ((key, updater (some e.2)) :: rest, 0)
    else
      let (m', id) := modelMutate rest key updater
      (e :: m', id + 1)

/-- Model lookup: the value and id currently associated with a key. -/
def modelFind {V : Type} : List (List Nat × V) → List Nat → Option (V × Nat)
  | [], _ => none
  | e :: rest, key =>
    if e.1 = key then some (e.2, 0)
    else (modelFind rest key).map fun p => (p.1, p.2 + 1)

/-- Run a sequence of operations on the abstract model. -/
def modelRun {V : Type} :
    List (List Nat × V) → List (List Nat × (Option V → V)) → List (List Nat × V) × List Nat
  | m, [] => (m, [])
  | m, (key, updater) :: rest =>
    let (m', id) := modelMutate m key updater
    let (m'', ids) := modelRun m' rest
    (m'', id :: ids)

/-! ## Indexing a JSON value (`src/indexer/json_term_writer.rs` lines 116-200)

`serde_json::Value`, as mutually inductive types (arrays and objects
hold lists of values).  JSON numbers carry the `as_u64`/`as_i64`
dispatch of the source; the `f64` fallback branch is omitted — floating
point is out of scope for every claim, and no claim exercises numbers.
The RFC 3339 parser of the external `time` crate is a black-box
parameter; what the source reads off its output (`unix_timestamp()` and
`microsecond()`, after `to_offset(UTC)`, which preserves the instant) is
modelled by `UtcInstant`. -/

structure UtcInstant where
  unixTimestamp : Int
  microsecond : Nat
deriving DecidableEq

/-- `DateTime::from_utc` (`src/lib.rs` lines 192-195):
`dt.unix_timestamp() * 1_000_000 + dt.microsecond()`. -/
def dateTimeFromUtc (u : UtcInstant) : Int :=
  u.unixTimestamp * 1000000 + (u.microsecond : Int)

mutual
inductive JsonValue where
  | null
  | bool (b : Bool)
  | numU64 (v : Nat)
  | numI64 (v : Int)
  | str (s : String)
  | arr (elems : JsonValueList)
  | obj (entries : JsonObjEntries)

inductive JsonValueList where
  | nil
  | cons (v : JsonValue) (rest : JsonValueList)

inductive JsonObjEntries where
  | nil
  | cons (key : String) (v : JsonValue) (rest : JsonObjEntries)
end

/-- `infer_type_from_str`'s result (`TextOrDateTime`). -/
inductive TextOrDateTime where
  | text (s : String)
  | dateTime (dt : UtcInstant)

/-- `infer_type_from_str` (lines 192-200): try the RFC 3339 parser;
on success convert to UTC (instant-preserving), otherwise keep the
text. -/
def inferTypeFromStr (parseRfc3339 : String → Option UtcInstant) (text : String) :
    TextOrDateTime :=
  match parseRfc3339 text with
  | some dt => .dateTime dt
  | none => .text text

/-- Observable effects of indexing on the black-box
`PostingsWriter`: `subscribe(doc, position, term)` for fast-value
leaves, `index_text(doc, token_stream(text), term_buffer, ..)` for text
(tokenization is a black box; the event records its inputs). -/
inductive IndexEvent where
  | subscribe (doc : Nat) (position : Nat) (term : List Nat)
  | indexText (doc : Nat) (text : String) (term : List Nat)
deriving DecidableEq

/-- UTF-8 bytes of a string, as `Nat`s. -/
def strBytes (s : String) : List Nat :=
  s.toUTF8.toList.map UInt8.toNat

mutual
/-- `index_json_value` (lines 116-185).  Returns the writer state and
the list of postings-writer events, in order.  `none` can arise only
from the (unreachable in this recursion) pop-on-empty-stack panic. -/
def indexJsonValue (parseRfc3339 : String → Option UtcInstant) (doc : Nat) :
    JsonValue → JsonTermWriter → Option (JsonTermWriter × List IndexEvent)
  | .null, w => some (w, [])
  | .bool b, w =>
    let w' := w.setFastValue (.bool b)
    some (w', [.subscribe doc 0 w'.term])
  | .numU64 v, w =>
    let w' := w.setFastValue (.u64 v)
    some (w', [.subscribe doc 0 w'.term])
  | .numI64 v, w =>
    let w' := w.setFastValue (.i64 v)
    some (w', [.subscribe doc 0 w'.term])
  | .str s, w =>
    match inferTypeFromStr parseRfc3339 s with
    | .text text =>
      let w' := w.closePathAndSetType .str
      some (w', [.indexText doc text w'.term])
    | .dateTime dt =>
      let w' := w.setFastValue (.date (dateTimeFromUtc dt))
      some (w', [.subscribe doc 0 w'.term])
  | .arr elems, w => indexJsonArr parseRfc3339 doc elems w
  | .obj entries, w => indexJsonObj parseRfc3339 doc entries w

/-- The `Value::Array` arm: index each element independently at the
same path. -/
def indexJsonArr (parseRfc3339 : String → Option UtcInstant) (doc : Nat) :
    JsonValueList → JsonTermWriter → Option (JsonTermWriter × List IndexEvent)
  | .nil, w => some (w, [])
  | .cons v rest, w =>
    match indexJsonValue parseRfc3339 doc v w with
    | none => none
    | some (w', evs) =>
      match indexJsonArr parseRfc3339 doc rest w' with
      | none => none
      | some (w'', evs') => some (w'', evs ++ evs')

/-- `index_json_object` (lines 92-114): push each key, index the value,
pop. -/
def indexJsonObj (parseRfc3339 : String → Option UtcInstant) (doc : Nat) :
    JsonObjEntries → JsonTermWriter → Option (JsonTermWriter × List IndexEvent)
  | .nil, w => some (w, [])
  | .cons key v rest, w =>
    match indexJsonValue parseRfc3339 doc v (w.pushPathSegment (strBytes key)) with
    | none => none
    | some (w', evs) =>
      match w'.popPathSegment with
      | none => none
      | some w'' =>
        match indexJsonObj parseRfc3339 doc rest w'' with
        | none => none
        | some (w3, evs2) => some (w3, evs ++ evs2)
end

/-! # Theorems -/

/-! ## Big-endian bytes: length, round trip, order preservation -/

theorem beBytes_length (w : Nat) : ∀ v : Nat, (beBytes w v).length = w := by
  induction w with
  | zero => intro v; rfl
  | succ w ih => intro v; simp [beBytes, ih]

theorem fromBeBytes_go (w : Nat) :
    ∀ v acc : Nat, v < 256 ^ w →
      (beBytes w v).foldl (fun a b => a * 256 + b) acc = acc * 256 ^ w + v := by
  induction w with
  | zero =>
    intro v acc hv
    interval_cases v
    simp [beBytes]
  | succ w ih =>
    intro v acc hv
    have hmod : v % 256 ^ w < 256 ^ w := Nat.mod_lt _ (Nat.pos_pow_of_pos w (by norm_num))
    simp only [beBytes, List.foldl_cons]
    rw [ih _ _ hmod]
    have hdm : 256 ^ w * (v / 256 ^ w) + v % 256 ^ w = v := Nat.div_add_mod v (256 ^ w)
    have : (acc * 256 + v / 256 ^ w) * 256 ^ w = acc * 256 ^ (w + 1) + 256 ^ w * (v / 256 ^ w) := by
      ring
    omega

theorem fromBeBytes_beBytes (w v : Nat) (hv : v < 256 ^ w) :
    fromBeBytes (beBytes w v) = v := by
  have := fromBeBytes_go w v 0 hv
  simpa [fromBeBytes] using this

theorem bytesLt_irrefl (xs : List Nat) : ¬ bytesLt xs xs := by
  have : IsIrrefl (List Nat) (List.Lex (· < ·)) := by infer_instance
  exact this.irrefl xs

theorem bytesLt_cons_iff {c : Nat} {xs ys : List Nat} :
    bytesLt (c :: xs) (c :: ys) ↔ bytesLt xs ys := by
  unfold bytesLt
  exact List.Lex.cons_iff

theorem bytesLt_cons_of_lt {a b : Nat} {xs ys : List Nat} (h : a < b) :
    bytesLt (a :: xs) (b :: ys) :=
  List.Lex.rel h

theorem bytesLt_cons_inv {a b : Nat} {xs ys : List Nat}
    (h : bytesLt (a :: xs) (b :: ys)) : a < b ∨ (a = b ∧ bytesLt xs ys) := by
  unfold bytesLt at h
  cases h with
  | cons h => exact .inr ⟨rfl, h⟩
  | rel h => exact .inl h

theorem beBytes_lt_iff (w : Nat) :
    ∀ a b : Nat, a < 256 ^ w → b < 256 ^ w →
      (bytesLt (beBytes w a) (beBytes w b) ↔ a < b) := by
  induction w with
  | zero =>
    intro a b ha hb
    interval_cases a
    interval_cases b
    simp only [beBytes]
    constructor
    · intro h; exact absurd h (bytesLt_irrefl [])
    · omega
  | succ w ih =>
    intro a b ha hb
    have hK : 0 < 256 ^ w := Nat.pos_pow_of_pos w (by norm_num)
    have hamod : a % 256 ^ w < 256 ^ w := Nat.mod_lt _ hK
    have hbmod : b % 256 ^ w < 256 ^ w := Nat.mod_lt _ hK
    have hadm : 256 ^ w * (a / 256 ^ w) + a % 256 ^ w = a := Nat.div_add_mod a (256 ^ w)
    have hbdm : 256 ^ w * (b / 256 ^ w) + b % 256 ^ w = b := Nat.div_add_mod b (256 ^ w)
    simp only [beBytes]
    rcases Nat.lt_trichotomy (a / 256 ^ w) (b / 256 ^ w) with hq | hq | hq
    · constructor
      · intro _
        calc a < 256 ^ w * (a / 256 ^ w) + 256 ^ w := by omega
          _ = 256 ^ w * (a / 256 ^ w + 1) := by ring
          _ ≤ 256 ^ w * (b / 256 ^ w) := Nat.mul_le_mul_left _ (by omega)
          _ ≤ b := by omega
      · intro _; exact bytesLt_cons_of_lt hq
    · have hfg : 256 ^ w * (a / 256 ^ w) = 256 ^ w * (b / 256 ^ w) := by rw [hq]
      rw [hq, bytesLt_cons_iff, ih _ _ hamod hbmod]
      omega
    · constructor
      · intro hlex
        rcases bytesLt_cons_inv hlex with h | ⟨h, _⟩ <;> omega
      · intro hab
        exfalso
        have hba : b < a :=
          calc b < 256 ^ w * (b / 256 ^ w) + 256 ^ w := by omega
            _ = 256 ^ w * (b / 256 ^ w + 1) := by ring
            _ ≤ 256 ^ w * (a / 256 ^ w) := Nat.mul_le_mul_left _ (by omega)
            _ ≤ a := by omega
        omega

theorem bytesLt_append_iff (p : List Nat) :
    ∀ xs ys : List Nat, (bytesLt (p ++ xs) (p ++ ys) ↔ bytesLt xs ys) := by
  induction p with
  | nil => intro xs ys; rfl
  | cons c p ih =>
    intro xs ys
    simp only [List.cons_append, bytesLt]
    rw [List.Lex.cons_iff]
    exact ih xs ys

theorem termWithTypeAndField_length (typ : FieldType) (f : Nat) :
    (termWithTypeAndField typ f).length = 5 := by
  simp [termWithTypeAndField, beBytes_length]

theorem fromFieldU64_eq (f v : Nat) :
    fromFieldU64 f v = termWithTypeAndField .u64 f ++ beBytes 8 v := by
  unfold fromFieldU64 termSetFastValueBytes termTruncateValueBytes u64ToU64
  rw [List.take_of_length_le (by rw [termWithTypeAndField_length]; norm_num [TERM_METADATA_LENGTH])]

/-- C4.  `Term::from_field_u64(f, v)` produces exactly
`[field_id BE4 | u64 code | v BE8]`, `as_u64` recovers `v`, and the
lexicographic byte order of two same-field u64 terms agrees with the
numeric order of the values. -/
theorem c4_term_u64_encoding (f v a b : Nat) (hv : v < 2 ^ 64)
    (ha : a < 2 ^ 64) (hb : b < 2 ^ 64) :
    fromFieldU64 f v = beBytes 4 f ++ [FieldType.u64.toCode] ++ beBytes 8 v
    ∧ termAsU64 (fromFieldU64 f v) = some v
    ∧ (bytesLt (fromFieldU64 f a) (fromFieldU64 f b) ↔ a < b) := by
  have h64 : (2 : Nat) ^ 64 = 256 ^ 8 := by norm_num
  have hbytes : ∀ x : Nat, fromFieldU64 f x = termWithTypeAndField .u64 f ++ beBytes 8 x :=
    fun x => fromFieldU64_eq f x
  refine ⟨?_, ?_, ?_⟩
  · rw [hbytes v, termWithTypeAndField, List.append_assoc]
  · rw [hbytes v]
    have hlen : (termWithTypeAndField FieldType.u64 f).length = 5 :=
      termWithTypeAndField_length _ _
    have hcode : (termWithTypeAndField FieldType.u64 f ++ beBytes 8 v)[4]? =
        some FieldType.u64.toCode := by
      rw [List.getElem?_append_left (by omega)]
      unfold termWithTypeAndField
      rw [List.getElem?_append_right (by simp [beBytes_length])]
      simp [beBytes_length]
    have hdrop : termValueBytes (termWithTypeAndField FieldType.u64 f ++ beBytes 8 v) =
        beBytes 8 v := by
      unfold termValueBytes TERM_METADATA_LENGTH
      rw [show (5 : Nat) = (termWithTypeAndField FieldType.u64 f).length from hlen.symm,
        List.drop_left]
    unfold termAsU64 termTypCode
    rw [hcode, hdrop]
    simp only [if_pos rfl, beBytes_length, if_pos]
    rw [fromBeBytes_beBytes 8 v (by omega)]
  · rw [hbytes a, hbytes b, bytesLt_append_iff, beBytes_lt_iff 8 a b (by omega) (by omega)]

/-- Witness for C4 at the spec's concrete scenario
(`from_field_u64(field=1, 4)`), discharging the range hypotheses. -/
theorem c4_term_u64_encoding_witness :
    fromFieldU64 1 4 = [0, 0, 0, 1, 117, 0, 0, 0, 0, 0, 0, 0, 4]
    ∧ termAsU64 (fromFieldU64 1 4) = some 4
    ∧ (bytesLt (fromFieldU64 1 3) (fromFieldU64 1 7) ↔ 3 < 7) := by
  have h := c4_term_u64_encoding 1 4 3 7 (by norm_num) (by norm_num) (by norm_num)
  exact ⟨by decide, h.2.1, h.2.2⟩

/-- C5.  Writing the JSON term for field 1, path segment `"color"`
(bytes `99 111 108 111 114`), and i64 leaf `-4` produces exactly
`[00 00 00 01 | 'j' | "color" | 0x00 | 'i' | 7F FF FF FF FF FF FF FC]`:
the i64 is sign-bit-flipped and big-endian encoded after the `0x00`
end-of-path marker and the leaf type code (the byte string of
`test_i64_term` in the source). -/
theorem c5_json_i64_term :
    (((JsonTermWriter.wrap (termWithTypeAndField .json 1) false).pushPathSegment
        [99, 111, 108, 111, 114]).setFastValue (.i64 (-4))).term
    = [0, 0, 0, 1, 106] ++ [99, 111, 108, 111, 114] ++ [0] ++ [105]
        ++ [127, 255, 255, 255, 255, 255, 255, 252] := by decide

/-- C8.  With the precondition `offsets[doc_start] ≤ ranks[0]` violated
(`offsets[1] = 10 > 5 = ranks[0]`), `select_batch_in_place` hits the
`assert!` and panics (modelled as `none`): no error value is returned. -/
theorem c8_precondition_violated_panics :
    selectBatchInPlace [0, 10, 12, 15, 22, 23] 1 [5] = none := by decide

theorem splitJsonPathGo_escape (cs : List Char) :
    ∀ buffer : List Char,
      splitJsonPathGo (escapeJsonPathChars cs) false buffer = [buffer ++ cs] := by
  induction cs with
  | nil => intro buffer; simp [escapeJsonPathChars, splitJsonPathGo]
  | cons c rest ih =>
    intro buffer
    by_cases hc : c = '.' ∨ c = '\\'
    · rw [escapeJsonPathChars, if_pos hc, splitJsonPathGo, if_pos rfl, splitJsonPathGo, ih]
      simp
    · push_neg at hc
      rw [escapeJsonPathChars, if_neg (by tauto), splitJsonPathGo, if_neg hc.2,
        if_neg hc.1, ih]
      simp

theorem prependSeg_consSeg (buffer : List Char) (c : Char) (l : List (List Char)) :
    prependSeg buffer (consSeg c l) = prependSeg (buffer ++ [c]) l := by
  cases l with
  | nil => rfl
  | cons s ss =>
    show (buffer ++ c :: s) :: ss = ((buffer ++ [c]) ++ s) :: ss
    rw [List.append_assoc]
    rfl

theorem consSeg_ne_nil (c : Char) (l : List (List Char)) : consSeg c l ≠ [] := by
  cases l with
  | nil => exact fun h => List.noConfusion h
  | cons s ss => exact fun h => List.noConfusion h

/-- One-step unfolding of the reference splitter on a cons cell. -/
theorem splitJsonPathSpec_cons (c : Char) (rest : List Char) :
    splitJsonPathSpec (c :: rest)
      = if c = '\\' then
          (match rest with
           | [] => [[]]
           | c2 :: rest2 => consSeg c2 (splitJsonPathSpec rest2))
        else if c = '.' then [] :: splitJsonPathSpec rest
        else consSeg c (splitJsonPathSpec rest) := by
  rw [splitJsonPathSpec.eq_def]

theorem splitJsonPathSpec_ne_nil : ∀ cs : List Char, splitJsonPathSpec cs ≠ [] := by
  intro cs
  cases cs with
  | nil => exact fun h => List.noConfusion h
  | cons c rest =>
    rw [splitJsonPathSpec_cons]
    by_cases hb : c = '\\'
    · rw [if_pos hb]
      cases rest with
      | nil => exact fun h => List.noConfusion h
      | cons c2 rest2 => exact consSeg_ne_nil c2 (splitJsonPathSpec rest2)
    · rw [if_neg hb]
      by_cases hd : c = '.'
      · rw [if_pos hd]
        exact fun h => List.noConfusion h
      · rw [if_neg hd]
        exact consSeg_ne_nil c (splitJsonPathSpec rest)

theorem prependSeg_nil (l : List (List Char)) (hl : l ≠ []) : prependSeg [] l = l := by
  cases l with
  | nil => exact absurd rfl hl
  | cons s ss =>
    show ([] ++ s) :: ss = s :: ss
    rw [List.nil_append]

/-- The accumulator loop of `split_json_path` computes the reference
splitter, the buffer prepended to the first segment of the rest. -/
theorem splitJsonPathGo_spec (n : Nat) :
    ∀ cs : List Char, cs.length ≤ n → ∀ buffer : List Char,
      splitJsonPathGo cs false buffer = prependSeg buffer (splitJsonPathSpec cs) := by
  induction n with
  | zero =>
    intro cs h buffer
    have hnil : cs = [] := List.eq_nil_of_length_eq_zero (by omega)
    subst hnil
    show [buffer] = prependSeg buffer [[]]
    show [buffer] = [buffer ++ []]
    rw [List.append_nil]
  | succ n ih =>
    intro cs h buffer
    cases cs with
    | nil =>
      show [buffer] = prependSeg buffer [[]]
      show [buffer] = [buffer ++ []]
      rw [List.append_nil]
    | cons c rest =>
      rw [List.length_cons] at h
      rw [splitJsonPathSpec_cons]
      by_cases hb : c = '\\'
      · rw [splitJsonPathGo, if_pos hb, if_pos hb]
        cases rest with
        | nil =>
          show [buffer] = [buffer ++ []]
          rw [List.append_nil]
        | cons c2 rest2 =>
          rw [List.length_cons] at h
          show splitJsonPathGo rest2 false (buffer ++ [c2])
            = prependSeg buffer (consSeg c2 (splitJsonPathSpec rest2))
          rw [ih rest2 (by omega) (buffer ++ [c2]), prependSeg_consSeg]
      · by_cases hd : c = '.'
        · rw [splitJsonPathGo, if_neg hb, if_pos hd, if_neg hb, if_pos hd]
          rw [ih rest (by omega) []]
          rw [prependSeg_nil _ (splitJsonPathSpec_ne_nil rest)]
          show buffer :: splitJsonPathSpec rest
            = (buffer ++ []) :: splitJsonPathSpec rest
          rw [List.append_nil]
        · rw [splitJsonPathGo, if_neg hb, if_neg hd, if_neg hb, if_neg hd]
          rw [ih rest (by omega) (buffer ++ [c]), prependSeg_consSeg]

/-- C10.  On every input string, `split_json_path` computes the
reference splitter taken from the claim's words: segments are cut at
every unescaped `.`, a backslash escapes the character after it (so a
backslash reaches the output only when itself escaped), and
leading/trailing/doubled dots cut empty segments.  In particular,
escaping every `.` and `\` of an arbitrary string yields that string
back as a single segment, and the claim's concrete cases hold
(`k8s\.node` → `k8s.node`, `toto\\titi` → `toto\titi`, dot splits and
empty segments as listed). -/
theorem c10_split_json_path :
    (∀ s : String, splitJsonPath s
        = (splitJsonPathSpec s.data).map fun cs => String.mk cs)
    ∧ (∀ s : String, splitJsonPath (escapeJsonPath s) = [s])
    ∧ splitJsonPath "k8s\\.node" = ["k8s.node"]
    ∧ splitJsonPath "toto\\\\titi" = ["toto\\titi"]
    ∧ splitJsonPath "k8s.node" = ["k8s", "node"]
    ∧ splitJsonPath ".toto" = ["", "toto"]
    ∧ splitJsonPath "toto." = ["toto", ""]
    ∧ splitJsonPath "a..b" = ["a", "", "b"] := by
  refine ⟨?_, ?_, by decide, by decide, by decide, by decide, by decide, by decide⟩
  · intro s
    unfold splitJsonPath
    rw [splitJsonPathGo_spec s.data.length s.data (Nat.le_refl _) []]
    rw [prependSeg_nil _ (splitJsonPathSpec_ne_nil s.data)]
  · intro s
    unfold splitJsonPath escapeJsonPath
    rw [show (String.mk (escapeJsonPathChars s.data)).data = escapeJsonPathChars s.data
        from rfl,
      splitJsonPathGo_escape]
    cases s with
    | mk data => rfl

theorem termSetFastValue_bytes (typ : FieldType) (f x : Nat) :
    termSetFastValueBytes (termWithTypeAndField typ f) x
      = termWithTypeAndField typ f ++ beBytes 8 x := by
  unfold termSetFastValueBytes termTruncateValueBytes
  rw [List.take_of_length_le
    (by rw [termWithTypeAndField_length]; norm_num [TERM_METADATA_LENGTH])]

theorem termValueBytes_append (typ : FieldType) (f : Nat) (bs : List Nat) :
    termValueBytes (termWithTypeAndField typ f ++ bs) = bs := by
  unfold termValueBytes TERM_METADATA_LENGTH
  rw [show (5 : Nat) = (termWithTypeAndField typ f).length from
    (termWithTypeAndField_length typ f).symm, List.drop_left]

theorem truncateSeconds_bounds (a : Int) :
    (0 ≤ a → 0 ≤ truncateSeconds a ∧ truncateSeconds a ≤ a)
    ∧ (a ≤ 0 → a ≤ truncateSeconds a ∧ truncateSeconds a ≤ 0) := by
  constructor
  · intro ha
    have h1 : 0 ≤ a.tdiv 1000000 := Int.tdiv_nonneg ha (by norm_num)
    have h2 : a.tdiv 1000000 * 1000000 + a.tmod 1000000 = a := Int.tdiv_add_tmod' a 1000000
    have h3 : 0 ≤ a.tmod 1000000 := Int.tmod_nonneg _ ha
    unfold truncateSeconds
    refine ⟨Int.mul_nonneg h1 (by norm_num), by omega⟩
  · intro ha
    have hna : 0 ≤ -a := by omega
    have h1 : 0 ≤ (-a).tdiv 1000000 := Int.tdiv_nonneg hna (by norm_num)
    have h2 : (-a).tdiv 1000000 * 1000000 + (-a).tmod 1000000 = -a :=
      Int.tdiv_add_tmod' (-a) 1000000
    have h3 : 0 ≤ (-a).tmod 1000000 := Int.tmod_nonneg _ hna
    have h4 : a.tdiv 1000000 = -((-a).tdiv 1000000) := by
      rw [Int.neg_tdiv, Int.neg_neg]
    unfold truncateSeconds
    rw [h4]
    have h5 : -((-a).tdiv 1000000) * 1000000 = -((-a).tdiv 1000000 * 1000000) := by ring
    rw [h5]
    omega

/-- C6 counterexample.  The claim's biconditional fails at
microsecond precision: the timestamps `0` and `1` (microseconds) differ,
but `from_field_date` truncates to *seconds* precision
(`DatePrecision::Seconds` in `Term::from_field_date`), so the two terms
have identical value bytes and neither is lexicographically below the
other. -/
theorem c6_date_order_counterexample :
    ¬ (bytesLt (termValueBytes (fromFieldDate 1 0)) (termValueBytes (fromFieldDate 1 1))
        ↔ (0 : Int) < 1) := by decide

/-- C6 amended.  Date terms encode the 8-byte big-endian of the
order-preserving u64 projection of the *seconds*-truncated timestamp:
the value bytes of `Term::from_field_date(f, a)` compare
lexicographically below those of `from_field_date(f, b)` iff
`a.truncate(Seconds) < b.truncate(Seconds)` — seconds precision, not
microsecond precision. -/
theorem c6_date_term_order_amended (f : Nat) (a b : Int)
    (ha1 : -(2 ^ 63) ≤ a) (ha2 : a < 2 ^ 63) (hb1 : -(2 ^ 63) ≤ b) (hb2 : b < 2 ^ 63) :
    (bytesLt (termValueBytes (fromFieldDate f a)) (termValueBytes (fromFieldDate f b))
      ↔ truncateSeconds a < truncateSeconds b) := by
  have hba := truncateSeconds_bounds a
  have hbb := truncateSeconds_bounds b
  have hta : -(2 ^ 63) ≤ truncateSeconds a ∧ truncateSeconds a < 2 ^ 63 := by
    rcases le_or_lt 0 a with h | h
    · have := hba.1 h; omega
    · have := hba.2 (by omega); omega
  have htb : -(2 ^ 63) ≤ truncateSeconds b ∧ truncateSeconds b < 2 ^ 63 := by
    rcases le_or_lt 0 b with h | h
    · have := hbb.1 h; omega
    · have := hbb.2 (by omega); omega
  unfold fromFieldDate
  rw [termSetFastValue_bytes, termSetFastValue_bytes, termValueBytes_append,
    termValueBytes_append]
  have hlta : dateToU64 (truncateSeconds a) < 256 ^ 8 := by
    unfold dateToU64 i64ToU64
    have : (256 : Nat) ^ 8 = 18446744073709551616 := by norm_num
    omega
  have hltb : dateToU64 (truncateSeconds b) < 256 ^ 8 := by
    unfold dateToU64 i64ToU64
    have : (256 : Nat) ^ 8 = 18446744073709551616 := by norm_num
    omega
  rw [beBytes_lt_iff 8 _ _ hlta hltb]
  unfold dateToU64 i64ToU64
  omega

/-- Witness for the amended C6 at concrete timestamps `-4 000 000 µs`
and `1 500 000 µs`. -/
theorem c6_date_term_order_amended_witness :
    (bytesLt (termValueBytes (fromFieldDate 1 (-4000000)))
        (termValueBytes (fromFieldDate 1 1500000))
      ↔ truncateSeconds (-4000000) < truncateSeconds 1500000) :=
  c6_date_term_order_amended 1 (-4000000) 1500000 (by norm_num) (by norm_num)
    (by norm_num) (by norm_num)

/-! ## C7: JSON term writer push/pop -/

namespace JsonTermWriter

theorem pushPathSegment_parts (w : JsonTermWriter) (s : List Nat) (hwf : w.Wf) :
    ∃ base : List Nat,
      base.length = w.pathStack.headD 0 + TERM_METADATA_LENGTH
      ∧ base.take (w.pathStack.headD 0 + TERM_METADATA_LENGTH - 1)
          = w.term.take (w.pathStack.headD 0 + TERM_METADATA_LENGTH - 1)
      ∧ (w.pushPathSegment s).term = base ++ (w.effSeg s ++ [JSON_PATH_SEGMENT_SEP])
      ∧ (w.pushPathSegment s).pathStack
          = (w.pathStack.headD 0 + (w.effSeg s).length + 1) :: w.pathStack
      ∧ (w.pushPathSegment s).expandDotsEnabled = w.expandDotsEnabled := by
  obtain ⟨tm, st, e⟩ := w
  obtain ⟨hne, hle⟩ := hwf
  cases st with
  | nil => exact absurd rfl hne
  | cons p rest =>
    simp only [List.headD_cons] at hle ⊢
    have hlen₁ : (tm.take (p + TERM_METADATA_LENGTH)).length = p + TERM_METADATA_LENGTH := by
      rw [List.length_take]; omega
    have htake : (tm.take (p + TERM_METADATA_LENGTH)).take (p + TERM_METADATA_LENGTH - 1)
        = tm.take (p + TERM_METADATA_LENGTH - 1) := by
      rw [List.take_take]
      congr 1
      omega
    by_cases hrep : (p :: rest).length > 1
    · refine ⟨setLastByte (tm.take (p + TERM_METADATA_LENGTH)) JSON_PATH_SEGMENT_SEP,
        ?_, ?_, ?_, ?_, rfl⟩
      · simp [setLastByte, hlen₁]
      · unfold setLastByte
        rw [hlen₁, List.set_take]
        rw [List.set_eq_of_length_le (by rw [List.length_take]; omega)]
        exact htake
      · unfold pushPathSegment trimToEndOfPath termTruncateValueBytes effSeg
        simp only [List.headD_cons, if_pos hrep]
        simp [List.append_assoc]
      · unfold pushPathSegment trimToEndOfPath termTruncateValueBytes effSeg
        simp only [List.headD_cons, if_pos hrep]
        simp only [List.length_append, List.length_singleton, setLastByte, List.length_set,
          hlen₁]
        congr 1
        unfold TERM_METADATA_LENGTH
        omega
    · refine ⟨tm.take (p + TERM_METADATA_LENGTH), hlen₁, htake, ?_, ?_, rfl⟩
      · unfold pushPathSegment trimToEndOfPath termTruncateValueBytes effSeg
        simp only [List.headD_cons, if_neg hrep]
        simp [List.append_assoc]
      · unfold pushPathSegment trimToEndOfPath termTruncateValueBytes effSeg
        simp only [List.headD_cons, if_neg hrep]
        simp only [List.length_append, List.length_singleton, hlen₁]
        congr 1
        unfold TERM_METADATA_LENGTH
        omega

theorem popPathSegment_eq_of (w : JsonTermWriter) (h p : Nat) (rest : List Nat)
    (hst : w.pathStack = h :: p :: rest) :
    w.popPathSegment
      = some ⟨w.term.take (p + TERM_METADATA_LENGTH), p :: rest, w.expandDotsEnabled⟩ := by
  obtain ⟨tm, st, e⟩ := w
  simp only at hst
  subst hst
  unfold popPathSegment trimToEndOfPath termTruncateValueBytes
  simp [List.headD_cons]

theorem setFastValue_pathStack (w : JsonTermWriter) (v : FastVal) :
    (w.setFastValue v).pathStack = w.pathStack := rfl

theorem setFastValue_expandDots (w : JsonTermWriter) (v : FastVal) :
    (w.setFastValue v).expandDotsEnabled = w.expandDotsEnabled := rfl

theorem take_append_of_le (n : Nat) (xs ys : List Nat) (h : n ≤ xs.length) :
    (xs ++ ys).take n = xs.take n := by
  rw [List.take_append_eq_append_take]
  have h0 : n - xs.length = 0 := by omega
  rw [h0]
  simp

theorem take_set_of_le (n i : Nat) (xs : List Nat) (v : Nat) (h : n ≤ i) :
    (xs.set i v).take n = xs.take n := by
  rw [List.set_take, List.set_eq_of_length_le (by rw [List.length_take]; omega)]

theorem take_prefix_set_append (base mid tail : List Nat) (i v : Nat)
    (hi : base.length ≤ i) :
    (((base ++ mid).set i v) ++ tail).take base.length = base := by
  have h1 : (((base ++ mid).set i v) ++ tail).take base.length
      = ((base ++ mid).set i v).take base.length :=
    take_append_of_le base.length _ tail (by rw [List.length_set, List.length_append]; omega)
  have h2 : ((base ++ mid).set i v).take base.length = (base ++ mid).take base.length :=
    take_set_of_le base.length i _ v hi
  have h3 : (base ++ mid).take base.length = base := List.take_left base mid
  rw [h1, h2, h3]

/-- `set_fast_value` on a freshly pushed state only modifies the buffer
at or beyond the previous end-of-path offset: taking the first
`p + TERM_METADATA_LENGTH` bytes recovers the pre-push base buffer. -/
theorem setFastValue_take (base seg : List Nat) (p : Nat) (rest : List Nat) (e : Bool)
    (v : FastVal) (hblen : base.length = p + TERM_METADATA_LENGTH) :
    (JsonTermWriter.setFastValue
        ⟨base ++ (seg ++ [JSON_PATH_SEGMENT_SEP]), (p + seg.length + 1) :: p :: rest, e⟩
        v).term.take (p + TERM_METADATA_LENGTH)
      = base := by
  have hlenT : (base ++ (seg ++ [JSON_PATH_SEGMENT_SEP])).length
      = p + seg.length + 1 + TERM_METADATA_LENGTH := by
    simp [hblen]
    omega
  unfold setFastValue closePathAndSetType trimToEndOfPath termTruncateValueBytes setLastByte
  simp only [List.headD_cons]
  rw [List.take_of_length_le (le_of_eq hlenT)]
  rw [List.append_assoc]
  rw [← hblen]
  exact take_prefix_set_append base (seg ++ [JSON_PATH_SEGMENT_SEP]) _ _ JSON_END_OF_PATH
    (by rw [List.length_append, List.length_append, List.length_singleton]; omega)

/-- C7 counterexample.  The claim quantifies over *every*
`JsonTermWriter` state; with `expand_dots` enabled and the segment
`"a.b"` (bytes `97 46 98`), the dot is rewritten to the path separator,
so the value bytes do *not* end with the segment bytes followed by
`0x01`. -/
theorem c7_push_suffix_counterexample :
    ¬ List.IsSuffix ([97, 46, 98] ++ [JSON_PATH_SEGMENT_SEP])
        ((JsonTermWriter.wrap (termWithTypeAndField .json 1) true).pushPathSegment
          [97, 46, 98]).valueBytes := by decide

/-- C7 amended.  For every well-formed writer state and segment `s`:
after `push_path_segment(s)` the value bytes end with the *effective*
segment bytes (with `.` expanded to `0x01` iff `expand_dots` is enabled
and `s` contains a dot — with expansion disabled they end with `s`
itself) followed by the `0x01` separator, and the new end-of-path
offset is pushed; `pop_path_segment` truncates the value bytes back to
the previously recorded offset and restores the stack; and a push
followed by a pop restores the encoded path bytes exactly, even when a
leaf value was set in between. -/
theorem c7_push_pop_amended (w : JsonTermWriter) (s : List Nat) (hwf : w.Wf) :
    List.IsSuffix (w.effSeg s ++ [JSON_PATH_SEGMENT_SEP]) (w.pushPathSegment s).valueBytes
    ∧ (w.expandDotsEnabled = false →
        List.IsSuffix (s ++ [JSON_PATH_SEGMENT_SEP]) (w.pushPathSegment s).valueBytes)
    ∧ (w.pushPathSegment s).pathStack = (w.pushPathSegment s).lenBytes :: w.pathStack
    ∧ (∃ w', (w.pushPathSegment s).popPathSegment = some w'
        ∧ w'.valueBytes = (w.pushPathSegment s).valueBytes.take (w.pathStack.headD 0)
        ∧ w'.pathStack = w.pathStack
        ∧ w'.path = w.path)
    ∧ (∀ v : FastVal, ∃ w'',
        ((w.pushPathSegment s).setFastValue v).popPathSegment = some w''
        ∧ w''.pathStack = w.pathStack
        ∧ w''.path = w.path) := by
  obtain ⟨base, hblen, hbtake, hterm, hstack, hflag⟩ := pushPathSegment_parts w s hwf
  obtain ⟨hne, hle⟩ := hwf
  obtain ⟨p, rest, hps⟩ : ∃ p rest, w.pathStack = p :: rest := by
    cases hs : w.pathStack with
    | nil => exact absurd hs hne
    | cons a l => exact ⟨a, l, rfl⟩
  have hheadD : w.pathStack.headD 0 = p := by rw [hps]; rfl
  have hheadD1 : w.pathStack.headD 1 = p := by rw [hps]; rfl
  rw [hheadD] at hblen hbtake hstack
  have hvb : (w.pushPathSegment s).valueBytes
      = base.drop TERM_METADATA_LENGTH ++ (w.effSeg s ++ [JSON_PATH_SEGMENT_SEP]) := by
    unfold valueBytes termValueBytes
    rw [hterm, List.drop_append_eq_append_drop]
    have : TERM_METADATA_LENGTH - base.length = 0 := by omega
    rw [this, List.drop_zero]
  have hdroplen : (base.drop TERM_METADATA_LENGTH).length = p := by
    rw [List.length_drop, hblen]; omega
  have hpath_base : (base.drop TERM_METADATA_LENGTH).take (p - 1)
      = (w.term.drop TERM_METADATA_LENGTH).take (p - 1) := by
    have harith : p + TERM_METADATA_LENGTH - 1 - TERM_METADATA_LENGTH = p - 1 := by
      unfold TERM_METADATA_LENGTH
      omega
    have e1 : (base.take (p + TERM_METADATA_LENGTH - 1)).drop TERM_METADATA_LENGTH
        = (base.drop TERM_METADATA_LENGTH).take (p - 1) := by
      rw [List.drop_take, harith]
    have e2 : (w.term.take (p + TERM_METADATA_LENGTH - 1)).drop TERM_METADATA_LENGTH
        = (w.term.drop TERM_METADATA_LENGTH).take (p - 1) := by
      rw [List.drop_take, harith]
    rw [← e1, ← e2, hbtake]
  refine ⟨?_, ?_, ?_, ?_, ?_⟩
  · rw [hvb]
    exact List.suffix_append _ _
  · intro hfalse
    have : w.effSeg s = s := by
      unfold effSeg
      rw [if_neg]
      rw [hfalse]
      simp
    rw [hvb, this]
    exact List.suffix_append _ _
  · rw [hstack]
    congr 1
    unfold lenBytes
    rw [hterm]
    simp [hblen]
    omega
  · have hpop := popPathSegment_eq_of (w.pushPathSegment s) (p + (w.effSeg s).length + 1) p rest
      (by rw [hstack, hps])
    refine ⟨_, hpop, ?_, ?_, ?_⟩
    · unfold valueBytes termValueBytes
      simp only
      have hpTM : p + TERM_METADATA_LENGTH - TERM_METADATA_LENGTH = p := by omega
      rw [hterm, hheadD, List.drop_take, hpTM]
    · show p :: rest = w.pathStack
      rw [hps]
    · unfold path valueBytes termValueBytes
      simp only [List.headD_cons, hheadD1]
      rw [hterm, List.drop_take]
      have h2 : p + TERM_METADATA_LENGTH - TERM_METADATA_LENGTH = p := by omega
      rw [h2, List.take_take]
      have h3 : (p - 1) ⊓ p = p - 1 := by omega
      rw [h3]
      rw [List.drop_append_eq_append_drop]
      have h4 : TERM_METADATA_LENGTH - base.length = 0 := by omega
      rw [h4, List.drop_zero]
      rw [take_append_of_le _ _ _ (by rw [List.length_drop, hblen]; omega)]
      exact hpath_base
  · intro v
    have hstack' : ((w.pushPathSegment s).setFastValue v).pathStack
        = (p + (w.effSeg s).length + 1) :: p :: rest := by
      rw [setFastValue_pathStack, hstack, hps]
    have hpop := popPathSegment_eq_of ((w.pushPathSegment s).setFastValue v)
      (p + (w.effSeg s).length + 1) p rest hstack'
    refine ⟨_, hpop, ?_, ?_⟩
    · show p :: rest = w.pathStack
      rw [hps]
    · have hPS : (w.pushPathSegment s)
          = ⟨base ++ (w.effSeg s ++ [JSON_PATH_SEGMENT_SEP]),
              (p + (w.effSeg s).length + 1) :: p :: rest, w.expandDotsEnabled⟩ := by
        rw [← hterm, ← hps, ← hstack, ← hflag]
      have htk : ((w.pushPathSegment s).setFastValue v).term.take (p + TERM_METADATA_LENGTH)
          = base := by
        rw [hPS]
        exact setFastValue_take base (w.effSeg s) p rest w.expandDotsEnabled v hblen
      unfold path valueBytes termValueBytes
      simp only [List.headD_cons, hheadD1]
      rw [htk]
      exact hpath_base

/-- Witness for the amended C7: a concrete well-formed state (field 1,
one segment pushed) with a further segment pushed and popped. -/
theorem c7_push_pop_amended_witness :
    ((JsonTermWriter.wrap (termWithTypeAndField .json 1) false).pushPathSegment
        [99, 111, 108, 111, 114]).Wf
    ∧ (List.IsSuffix
        (((JsonTermWriter.wrap (termWithTypeAndField .json 1) false).pushPathSegment
            [99, 111, 108, 111, 114]).effSeg [104, 117, 101] ++ [JSON_PATH_SEGMENT_SEP])
        ((((JsonTermWriter.wrap (termWithTypeAndField .json 1) false).pushPathSegment
            [99, 111, 108, 111, 114]).pushPathSegment [104, 117, 101]).valueBytes)) := by
  refine ⟨by decide, ?_⟩
  have h := c7_push_pop_amended
    ((JsonTermWriter.wrap (termWithTypeAndField .json 1) false).pushPathSegment
      [99, 111, 108, 111, 114]) [104, 117, 101] (by decide)
  exact h.1

end JsonTermWriter

/-! ## C9: indexing a JSON string -/

/-- C9.  When indexing a JSON string value: a string the RFC 3339 parser
accepts is indexed as a single Date fast-value term — converted to UTC
(`unix_timestamp * 1e6 + microsecond`), truncated to seconds precision
by `set_fast_value`'s `Date` branch — via one `subscribe` at position 0
and is not tokenized; a string the parser rejects is handed to the
tokenizer (`index_text`) under the current path with the `Str` leaf type
code. -/
theorem c9_json_string_dispatch (parse : String → Option UtcInstant) (doc : Nat)
    (s : String) (w : JsonTermWriter) :
    (∀ dt : UtcInstant, parse s = some dt →
      indexJsonValue parse doc (.str s) w
        = some (w.setFastValue (.date (dateTimeFromUtc dt)),
            [.subscribe doc 0 (w.setFastValue (.date (dateTimeFromUtc dt))).term])
      ∧ (w.setFastValue (.date (dateTimeFromUtc dt))).term
          = (w.closePathAndSetType .date).term
            ++ beBytes 8 (i64ToU64 (truncateSeconds (dateTimeFromUtc dt))))
    ∧ (parse s = none →
      indexJsonValue parse doc (.str s) w
        = some (w.closePathAndSetType .str,
            [.indexText doc s (w.closePathAndSetType .str).term])) := by
  constructor
  · intro dt hdt
    constructor
    · rw [indexJsonValue]
      unfold inferTypeFromStr
      rw [hdt]
    · rfl
  · intro hnone
    rw [indexJsonValue]
    unfold inferTypeFromStr
    rw [hnone]

/-- Witness for C9: one always-accepting and one always-rejecting
parser, at a concrete writer state. -/
theorem c9_json_string_dispatch_witness :
    ((fun _ : String => some (UtcInstant.mk 5 250000)) "x" = some (UtcInstant.mk 5 250000)
      ∧ indexJsonValue (fun _ => some (UtcInstant.mk 5 250000)) 3 (.str "x")
          ((JsonTermWriter.wrap (termWithTypeAndField .json 1) false).pushPathSegment
            [99, 111, 108, 111, 114])
        = some
            (((JsonTermWriter.wrap (termWithTypeAndField .json 1) false).pushPathSegment
              [99, 111, 108, 111, 114]).setFastValue
                (.date (dateTimeFromUtc (UtcInstant.mk 5 250000))),
              [.subscribe 3 0
                (((JsonTermWriter.wrap (termWithTypeAndField .json 1) false).pushPathSegment
                  [99, 111, 108, 111, 114]).setFastValue
                    (.date (dateTimeFromUtc (UtcInstant.mk 5 250000)))).term]))
    ∧ ((fun _ : String => (none : Option UtcInstant)) "x" = none
      ∧ indexJsonValue (fun _ => (none : Option UtcInstant)) 3 (.str "x")
          ((JsonTermWriter.wrap (termWithTypeAndField .json 1) false).pushPathSegment
            [99, 111, 108, 111, 114])
        = some
            (((JsonTermWriter.wrap (termWithTypeAndField .json 1) false).pushPathSegment
              [99, 111, 108, 111, 114]).closePathAndSetType .str,
              [.indexText 3 "x"
                (((JsonTermWriter.wrap (termWithTypeAndField .json 1) false).pushPathSegment
                  [99, 111, 108, 111, 114]).closePathAndSetType .str).term])) := by
  constructor
  · refine ⟨rfl, ?_⟩
    exact ((c9_json_string_dispatch (fun _ => some (UtcInstant.mk 5 250000)) 3 "x"
      ((JsonTermWriter.wrap (termWithTypeAndField .json 1) false).pushPathSegment
        [99, 111, 108, 111, 114])).1 (UtcInstant.mk 5 250000) rfl).1
  · refine ⟨rfl, ?_⟩
    exact (c9_json_string_dispatch (fun _ => none) 3 "x"
      ((JsonTermWriter.wrap (termWithTypeAndField .json 1) false).pushPathSegment
        [99, 111, 108, 111, 114])).2 rfl

/-! ## C1: `select_batch_in_place` -/

theorem rankToDocGo_spec (offsets : List Nat) (r : Nat) :
    ∀ fuel d, (∃ e, d ≤ e ∧ e < d + fuel ∧ r < offsets.getD (e + 1) 0) →
      d ≤ rankToDocGo offsets r fuel d
      ∧ r < offsets.getD (rankToDocGo offsets r fuel d + 1) 0
      ∧ ∀ e, d ≤ e → r < offsets.getD (e + 1) 0 → rankToDocGo offsets r fuel d ≤ e := by
  intro fuel
  induction fuel with
  | zero =>
    intro d ⟨e, h1, h2, _⟩
    omega
  | succ fuel ih =>
    intro d ⟨e, h1, h2, h3⟩
    by_cases hP : r < offsets.getD (d + 1) 0
    · rw [rankToDocGo, if_pos hP]
      exact ⟨le_refl d, hP, fun e he _ => he⟩
    · rw [rankToDocGo, if_neg hP]
      have hed : d ≠ e := by
        intro h
        exact hP (h ▸ h3)
      obtain ⟨g1, g2, g3⟩ := ih (d + 1) ⟨e, by omega, by omega, h3⟩
      refine ⟨by omega, g2, ?_⟩
      intro e' he' hPe'
      have : d ≠ e' := by
        intro h
        exact hP (h ▸ hPe')
      exact g3 e' (by omega) hPe'

/-- Characterisation of the claim's `rank_to_doc` under the claim's
hypotheses: it is the unique doc `d ≥ doc_start` with
`offsets[d] ≤ r < offsets[d+1]`, and it is minimal with
`r < offsets[d+1]`. -/
theorem rankToDoc_char (offsets : List Nat) (d0 r : Nat)
    (hmono : ∀ i j, i ≤ j → j < offsets.length → offsets.getD i 0 ≤ offsets.getD j 0)
    (hd0 : d0 < offsets.length)
    (h1 : offsets.getD d0 0 ≤ r)
    (h2 : r < offsets.getD (offsets.length - 1) 0) :
    d0 ≤ rankToDoc offsets d0 r
    ∧ offsets.getD (rankToDoc offsets d0 r) 0 ≤ r
    ∧ r < offsets.getD (rankToDoc offsets d0 r + 1) 0
    ∧ rankToDoc offsets d0 r + 1 < offsets.length
    ∧ (∀ e, d0 ≤ e → r < offsets.getD (e + 1) 0 → rankToDoc offsets d0 r ≤ e)
    ∧ (∀ d, d0 ≤ d → offsets.getD d 0 ≤ r → r < offsets.getD (d + 1) 0 →
        d = rankToDoc offsets d0 r) := by
  have hlen2 : 2 ≤ offsets.length := by
    by_contra hc
    push_neg at hc
    have e0 : offsets.length - 1 = d0 := by omega
    rw [e0] at h2
    omega
  have hd0le : d0 ≤ offsets.length - 2 := by
    by_contra h
    push_neg at h
    have hde : d0 = offsets.length - 1 := by omega
    rw [hde] at h1
    omega
  have hexist : ∃ e, d0 ≤ e ∧ e < d0 + offsets.length ∧ r < offsets.getD (e + 1) 0 := by
    refine ⟨offsets.length - 2, hd0le, by omega, ?_⟩
    have : offsets.length - 2 + 1 = offsets.length - 1 := by omega
    rw [this]
    exact h2
  obtain ⟨g1, g2, g3⟩ := rankToDocGo_spec offsets r offsets.length d0 hexist
  have hrd : rankToDoc offsets d0 r = rankToDocGo offsets r offsets.length d0 := rfl
  rw [← hrd] at g1 g2 g3
  have hmin := g3
  have hub : rankToDoc offsets d0 r ≤ offsets.length - 2 := by
    apply g3
    · exact hd0le
    · have : offsets.length - 2 + 1 = offsets.length - 1 := by omega
      rw [this]
      exact h2
  have hlow : offsets.getD (rankToDoc offsets d0 r) 0 ≤ r := by
    rcases Nat.eq_or_lt_of_le g1 with h | h
    · rw [← h]; exact h1
    · by_contra hc
      push_neg at hc
      have := g3 (rankToDoc offsets d0 r - 1) (by omega)
        (by
          have : rankToDoc offsets d0 r - 1 + 1 = rankToDoc offsets d0 r := by omega
          rw [this]
          omega)
      omega
  refine ⟨g1, hlow, g2, by omega, g3, ?_⟩
  intro d hd hdl hdu
  have hrle : rankToDoc offsets d0 r ≤ d := g3 d hd hdu
  rcases Nat.eq_or_lt_of_le hrle with h | h
  · omega
  · exfalso
    have hdlt : d + 1 < offsets.length := by
      by_contra hc
      push_neg at hc
      have : offsets.getD (d + 1) 0 = 0 := by
        apply List.getD_eq_default
        omega
      omega
    have : offsets.getD (rankToDoc offsets d0 r + 1) 0 ≤ offsets.getD d 0 :=
      hmono _ _ (by omega) (by omega)
    omega

theorem selectAdvance_spec (offsets : List Nat) (pos : Nat) :
    ∀ fuel cur,
      (∃ e, cur ≤ e ∧ e < cur + fuel ∧ e + 1 < offsets.length ∧ pos < offsets.getD (e + 1) 0) →
      ∃ d, selectAdvance offsets pos fuel cur = some d
        ∧ cur ≤ d ∧ d + 1 < offsets.length ∧ pos < offsets.getD (d + 1) 0
        ∧ ∀ e, cur ≤ e → pos < offsets.getD (e + 1) 0 → d ≤ e := by
  intro fuel
  induction fuel with
  | zero =>
    intro cur ⟨e, h1, h2, _, _⟩
    omega
  | succ fuel ih =>
    intro cur ⟨e, h1, h2, h3, h4⟩
    have hbound : cur + 1 < offsets.length := by omega
    have hread : offsets[cur + 1]? = some (offsets.getD (cur + 1) 0) := by
      rw [List.getElem?_eq_getElem hbound, List.getD_eq_getElem offsets 0 hbound]
    by_cases hP : offsets.getD (cur + 1) 0 > pos
    · refine ⟨cur, ?_, le_refl _, hbound, hP, fun e' he' _ => he'⟩
      rw [selectAdvance, hread]
      simp only [if_pos hP]
    · have hce : cur ≠ e := by
        intro h
        exact hP (h ▸ h4)
      obtain ⟨d, hd1, hd2, hd3, hd4, hd5⟩ := ih (cur + 1) ⟨e, by omega, by omega, h3, h4⟩
      refine ⟨d, ?_, by omega, hd3, hd4, ?_⟩
      · rw [selectAdvance, hread]
        simp only [if_neg hP]
        exact hd1
      · intro e' he' hPe'
        have : cur ≠ e' := by
          intro h
          exact hP (h ▸ hPe')
        exact hd5 e' (by omega) hPe'

theorem dedupFrom_snoc (a : Nat) :
    ∀ (xs : List Nat) (l : Option Nat),
      dedupFrom l (xs ++ [a])
        = dedupFrom l xs ++ (if lastState l xs = some a then [] else [a]) := by
  intro xs
  induction xs with
  | nil =>
    intro l
    by_cases h : l = some a
    · simp [dedupFrom, lastState, h]
    · simp [dedupFrom, lastState, h]
  | cons x xs ih =>
    intro l
    have hlast : ∀ l' : Option Nat, lastState l' (x :: xs) = lastState (some x) xs := by
      intro l'
      cases xs with
      | nil => rfl
      | cons y t =>
        unfold lastState
        rw [List.getLast?_cons_cons]
        cases hq : (y :: t).getLast? with
        | none =>
          have hnil := List.getLast?_eq_none_iff.mp hq
          simp at hnil
        | some b => rfl
    simp only [List.cons_append, dedupFrom, List.append_eq]
    by_cases h : l = some x
    · rw [if_pos h, if_pos h, ih l, hlast l, h]
    · rw [if_neg h, if_neg h, ih (some x), hlast l]
      simp [List.append_assoc]

theorem lastState_snoc (l : Option Nat) (xs : List Nat) (a : Nat) :
    lastState l (xs ++ [a]) = some a := by
  unfold lastState
  rw [List.getLast?_concat]

theorem take_set_snoc (xs : List Nat) (w : Nat) (d : Nat) (h : w < xs.length) :
    (xs.set w d).take (w + 1) = xs.take w ++ [d] := by
  rw [List.take_succ]
  congr 1
  · rw [List.set_take, List.set_eq_of_length_le (by rw [List.length_take]; omega)]
  · rw [List.getElem?_set_self h]
    rfl

theorem selectOuter_spec (offsets : List Nat) (d0 : Nat) (r0 : List Nat)
    (hmono : ∀ i j, i ≤ j → j < offsets.length → offsets.getD i 0 ≤ offsets.getD j 0)
    (hd0 : d0 < offsets.length)
    (hfirstD : ∀ i, i < r0.length → offsets.getD d0 0 ≤ r0.getD i 0)
    (hsortD : ∀ i j, i ≤ j → j < r0.length → r0.getD i 0 ≤ r0.getD j 0)
    (hlastD : ∀ i, i < r0.length → r0.getD i 0 < offsets.getD (offsets.length - 1) 0) :
    ∀ fuel i rks w c ld,
      r0.length - i ≤ fuel →
      i ≤ r0.length →
      rks.length = r0.length →
      (∀ j, i ≤ j → j < r0.length → rks.getD j 0 = r0.getD j 0) →
      w ≤ i →
      rks.take w = dedupConsecutive ((r0.take i).map (rankToDoc offsets d0)) →
      ld = lastState none ((r0.take i).map (rankToDoc offsets d0)) →
      c = (if i = 0 then d0 else rankToDoc offsets d0 (r0.getD (i - 1) 0)) →
      ∃ rks' w', selectOuter offsets fuel rks i w c ld = some (rks', w')
        ∧ rks'.take w' = dedupConsecutive (r0.map (rankToDoc offsets d0)) := by
  intro fuel
  induction fuel with
  | zero =>
    intro i rks w c ld hfuel hile hlen hsuffix hwle htake hld hc
    have hieq : i = r0.length := by omega
    rw [selectOuter, if_neg (by omega)]
    refine ⟨rks, w, rfl, ?_⟩
    rw [htake, hieq, List.take_length]
  | succ fuel ih =>
    intro i rks w c ld hfuel hile hlen hsuffix hwle htake hld hc
    by_cases hi : i < r0.length
    · have hgate : i < rks.length := by omega
      have hpos : rks.get ⟨i, hgate⟩ = r0.getD i 0 := by
        rw [List.get_eq_getElem, ← List.getD_eq_getElem rks 0 hgate]
        exact hsuffix i (le_refl i) hi
      obtain ⟨hch1, hch2, hch3, hch4, hch5, hch6⟩ :=
        rankToDoc_char offsets d0 (r0.getD i 0) hmono hd0 (hfirstD i hi) (hlastD i hi)
      have hcur : d0 ≤ c ∧ c ≤ rankToDoc offsets d0 (r0.getD i 0) := by
        by_cases hi0 : i = 0
        · rw [hc, if_pos hi0]
          exact ⟨le_refl _, hch1⟩
        · rw [hc, if_neg hi0]
          have hprev : i - 1 < r0.length := by omega
          obtain ⟨hp1, hp2, hp3, hp4, hp5, hp6⟩ :=
            rankToDoc_char offsets d0 (r0.getD (i - 1) 0) hmono hd0
              (hfirstD (i - 1) hprev) (hlastD (i - 1) hprev)
          refine ⟨hp1, ?_⟩
          apply hp5
          · exact hch1
          · have hmle : r0.getD (i - 1) 0 ≤ r0.getD i 0 := hsortD (i - 1) i (by omega) hi
            omega
      obtain ⟨d, hsel, hdc, hdlt, hdP, hdmin⟩ :=
        selectAdvance_spec offsets (r0.getD i 0) offsets.length c
          ⟨rankToDoc offsets d0 (r0.getD i 0), hcur.2, by omega, hch4, hch3⟩
      have hdeq : d = rankToDoc offsets d0 (r0.getD i 0) := by
        have h1 : rankToDoc offsets d0 (r0.getD i 0) ≤ d := hch5 d (by omega) hdP
        have h2 : d ≤ rankToDoc offsets d0 (r0.getD i 0) := hdmin _ hcur.2 hch3
        omega
      subst hdeq
      rw [selectOuter, dif_pos hgate, hpos, hsel]
      show ∃ rks' w',
        selectOuter offsets fuel (rks.set w (rankToDoc offsets d0 (r0.getD i 0))) (i + 1)
          (w + (if ld = some (rankToDoc offsets d0 (r0.getD i 0)) then 0 else 1))
          (rankToDoc offsets d0 (r0.getD i 0))
          (some (rankToDoc offsets d0 (r0.getD i 0))) = some (rks', w')
        ∧ rks'.take w' = dedupConsecutive (r0.map (rankToDoc offsets d0))
      have hmap : (r0.take (i + 1)).map (rankToDoc offsets d0)
          = (r0.take i).map (rankToDoc offsets d0)
            ++ [rankToDoc offsets d0 (r0.getD i 0)] := by
        rw [List.take_succ, List.map_append]
        congr 1
        rw [List.getElem?_eq_getElem hi, ← List.getD_eq_getElem r0 0 hi]
        rfl
      have hsuffix' : ∀ j, i + 1 ≤ j → j < r0.length →
          (rks.set w (rankToDoc offsets d0 (r0.getD i 0))).getD j 0 = r0.getD j 0 := by
        intro j hj1 hj2
        rw [List.getD_eq_getElem?_getD, List.getElem?_set_ne (by omega),
          ← List.getD_eq_getElem?_getD]
        exact hsuffix j (by omega) hj2
      have hld' : some (rankToDoc offsets d0 (r0.getD i 0))
          = lastState none ((r0.take (i + 1)).map (rankToDoc offsets d0)) := by
        rw [hmap, lastState_snoc]
      have hc' : rankToDoc offsets d0 (r0.getD i 0)
          = (if i + 1 = 0 then d0
             else rankToDoc offsets d0 (r0.getD (i + 1 - 1) 0)) := by
        rw [if_neg (by omega), show i + 1 - 1 = i from by omega]
      by_cases hdup : ld = some (rankToDoc offsets d0 (r0.getD i 0))
      · rw [if_pos hdup]
        simp only [Nat.add_zero]
        apply ih (i + 1) (rks.set w (rankToDoc offsets d0 (r0.getD i 0))) w
          (rankToDoc offsets d0 (r0.getD i 0))
          (some (rankToDoc offsets d0 (r0.getD i 0)))
          (by omega) (by omega) (by rw [List.length_set]; omega)
          hsuffix' (by omega) ?_ hld' hc'
        rw [List.set_take, List.set_eq_of_length_le (by rw [List.length_take]; omega)]
        rw [htake, hmap]
        simp only [dedupConsecutive]
        rw [dedupFrom_snoc, ← hld, if_pos hdup, List.append_nil]
      · rw [if_neg hdup]
        apply ih (i + 1) (rks.set w (rankToDoc offsets d0 (r0.getD i 0))) (w + 1)
          (rankToDoc offsets d0 (r0.getD i 0))
          (some (rankToDoc offsets d0 (r0.getD i 0)))
          (by omega) (by omega) (by rw [List.length_set]; omega)
          hsuffix' (by omega) ?_ hld' hc'
        rw [take_set_snoc rks w _ (by omega)]
        rw [htake, hmap]
        simp only [dedupConsecutive]
        rw [dedupFrom_snoc, ← hld, if_neg hdup]
    · rw [selectOuter, dif_neg (by omega)]
      refine ⟨rks, w, rfl, ?_⟩
      have hieq : i = r0.length := by omega
      rw [htake, hieq, List.take_length]

/-- C1.  For every offset index (monotone, with `doc_start` in range)
and every non-empty monotonically increasing in-range `ranks` list with
`ranks[0] ≥ offsets[doc_start]`: `select_batch_in_place(doc_start,
ranks)` rewrites `ranks` in place to `dedup_consecutive(rank_to_doc(r))`
— and `rank_to_doc(r)` is the unique doc `d ≥ doc_start` with
`offsets[d] ≤ r < offsets[d+1]`. -/
theorem c1_select_batch_in_place (offsets : List Nat) (d0 : Nat) (ranks : List Nat)
    (hadj : ∀ j, j < offsets.length - 1 → offsets.getD j 0 ≤ offsets.getD (j + 1) 0)
    (hd0 : d0 < offsets.length)
    (hne : ranks ≠ [])
    (hsorted : List.Sorted (· ≤ ·) ranks)
    (hfirst : offsets.getD d0 0 ≤ ranks.headD 0)
    (hlast : ∀ r ∈ ranks, r < offsets.getD (offsets.length - 1) 0) :
    selectBatchInPlace offsets d0 ranks
      = some (dedupConsecutive (ranks.map (rankToDoc offsets d0)))
    ∧ ∀ r ∈ ranks,
        d0 ≤ rankToDoc offsets d0 r
        ∧ offsets.getD (rankToDoc offsets d0 r) 0 ≤ r
        ∧ r < offsets.getD (rankToDoc offsets d0 r + 1) 0
        ∧ ∀ d, d0 ≤ d → offsets.getD d 0 ≤ r → r < offsets.getD (d + 1) 0 →
            d = rankToDoc offsets d0 r := by
  have hmono : ∀ i j, i ≤ j → j < offsets.length → offsets.getD i 0 ≤ offsets.getD j 0 := by
    have hstep : ∀ k i, i + k < offsets.length → offsets.getD i 0 ≤ offsets.getD (i + k) 0 := by
      intro k
      induction k with
      | zero => intro i _; exact le_refl _
      | succ k ihk =>
        intro i h
        calc offsets.getD i 0 ≤ offsets.getD (i + k) 0 := ihk i (by omega)
          _ ≤ offsets.getD (i + k + 1) 0 := hadj (i + k) (by omega)
    intro i j hij hj
    have : j = i + (j - i) := by omega
    rw [this]
    exact hstep (j - i) i (by omega)
  have hsortD : ∀ i j, i ≤ j → j < ranks.length → ranks.getD i 0 ≤ ranks.getD j 0 := by
    intro i j hij hj
    rcases Nat.eq_or_lt_of_le hij with h | h
    · subst h; exact le_refl _
    · rw [List.getD_eq_getElem ranks 0 (by omega), List.getD_eq_getElem ranks 0 hj]
      exact List.pairwise_iff_getElem.mp hsorted i j (by omega) hj h
  have hhead : ranks.headD 0 = ranks.getD 0 0 := by
    cases ranks with
    | nil => rfl
    | cons a t => rfl
  have hfirstD : ∀ i, i < ranks.length → offsets.getD d0 0 ≤ ranks.getD i 0 := by
    intro i hi
    calc offsets.getD d0 0 ≤ ranks.headD 0 := hfirst
      _ = ranks.getD 0 0 := hhead
      _ ≤ ranks.getD i 0 := hsortD 0 i (by omega) hi
  have hlastD : ∀ i, i < ranks.length → ranks.getD i 0 < offsets.getD (offsets.length - 1) 0 := by
    intro i hi
    apply hlast
    rw [List.getD_eq_getElem ranks 0 hi]
    exact List.getElem_mem hi
  have hmemD : ∀ r ∈ ranks, ∃ i, i < ranks.length ∧ ranks.getD i 0 = r := by
    intro r hr
    obtain ⟨i, hi, hieq⟩ := List.mem_iff_getElem.mp hr
    exact ⟨i, hi, by rw [List.getD_eq_getElem ranks 0 hi]; exact hieq⟩
  constructor
  · obtain ⟨rks', w', hrun, htk⟩ :=
      selectOuter_spec offsets d0 ranks hmono hd0 hfirstD hsortD hlastD
        ranks.length 0 ranks 0 d0 none (by omega) (by omega) rfl
        (fun j _ _ => rfl) (by omega) (by simp [dedupConsecutive, dedupFrom])
        (by simp [lastState]) (by rw [if_pos rfl])
    unfold selectBatchInPlace
    rw [if_neg (by simp [List.isEmpty_iff, hne])]
    rw [List.getElem?_eq_getElem hd0, ← List.getD_eq_getElem offsets 0 hd0]
    change (if offsets.getD d0 0 ≤ ranks.headD 0 then
        match selectOuter offsets ranks.length ranks 0 0 d0 none with
        | none => none
        | some (ranks', writePos) => some (List.take writePos ranks')
      else none) = some (dedupConsecutive (List.map (rankToDoc offsets d0) ranks))
    rw [if_pos hfirst, hrun]
    show some (List.take w' rks') = some (dedupConsecutive (List.map (rankToDoc offsets d0) ranks))
    rw [htk]
  · intro r hr
    obtain ⟨i, hi, hieq⟩ := hmemD r hr
    obtain ⟨g1, g2, g3, _, _, g6⟩ :=
      rankToDoc_char offsets d0 r hmono hd0 (hieq ▸ hfirstD i hi) (hieq ▸ hlastD i hi)
    exact ⟨g1, g2, g3, g6⟩

/-- Witness for C1 at the spec's concrete scenario:
`offsets = [0,10,12,15,22,23]`, `ranks = [10,11,15,20,21,22]`,
`doc_start = 0` → output `[1,3,4]`. -/
theorem c1_select_batch_in_place_witness :
    selectBatchInPlace [0, 10, 12, 15, 22, 23] 0 [10, 11, 15, 20, 21, 22]
      = some [1, 3, 4] := by
  have h := (c1_select_batch_in_place [0, 10, 12, 15, 22, 23] 0 [10, 11, 15, 20, 21, 22]
    (by decide) (by decide) (by decide) (by decide) (by decide) (by decide)).1
  rw [h]
  decide

/-! ## C2/C3: arena hash map -/

namespace ArenaHashMap

variable {V : Type}

theorem probePos_eq_mod (h j k : Nat) :
    probePos h (2 ^ k - 1) j = (h + j) % 2 ^ k := by
  unfold probePos
  exact Nat.and_pow_two_sub_one_eq_mod (h + j) k

theorem probePos_lt (h j k : Nat) : probePos h (2 ^ k - 1) j < 2 ^ k := by
  rw [probePos_eq_mod]
  exact Nat.mod_lt _ (Nat.pos_pow_of_pos k (by norm_num))

/-- The probe sequence covers every bucket within `2^k` steps. -/
theorem probePos_coverage (h k : Nat) (b : Nat) (hb : b < 2 ^ k) :
    ∃ j, 1 ≤ j ∧ j ≤ 2 ^ k ∧ probePos h (2 ^ k - 1) j = b := by
  have hpos : 0 < 2 ^ k := Nat.pos_pow_of_pos k (by norm_num)
  set r := h % 2 ^ k with hr
  have hrlt : r < 2 ^ k := Nat.mod_lt _ hpos
  set j0 := (b + 2 ^ k - r) % 2 ^ k with hj0
  refine ⟨if j0 = 0 then 2 ^ k else j0, ?_, ?_, ?_⟩
  · by_cases hz : j0 = 0
    · rw [if_pos hz]; omega
    · rw [if_neg hz]; omega
  · by_cases hz : j0 = 0
    · rw [if_pos hz]
    · rw [if_neg hz]
      have : j0 < 2 ^ k := Nat.mod_lt _ hpos
      omega
  · have hmodj : (if j0 = 0 then 2 ^ k else j0) % 2 ^ k = j0 := by
      by_cases hz : j0 = 0
      · rw [if_pos hz, Nat.mod_self, hz]
      · rw [if_neg hz]
        have : j0 < 2 ^ k := Nat.mod_lt _ hpos
        exact Nat.mod_eq_of_lt this
    have e3 : h % 2 ^ k + (b + 2 ^ k - h % 2 ^ k) = b + 2 ^ k := by
      have : h % 2 ^ k < 2 ^ k := Nat.mod_lt _ hpos
      omega
    rw [probePos_eq_mod, Nat.add_mod, hmodj, hj0, hr]
    rw [Nat.add_mod_mod, e3, Nat.add_mod_right]
    exact Nat.mod_eq_of_lt hb

/-- Pigeonhole: fewer entries than buckets leaves an empty bucket. -/
theorem exists_unoccupied (bpos : Nat → Nat) (n size : Nat) (hn : n < size) :
    ∃ b, b < size ∧ ∀ i, i < n → bpos i ≠ b := by
  by_contra hcon
  push_neg at hcon
  have hsub : Finset.range size ⊆ (Finset.range n).image bpos := by
    intro b hb
    rw [Finset.mem_range] at hb
    obtain ⟨i, hi, hieq⟩ := hcon b hb
    rw [Finset.mem_image]
    exact ⟨i, Finset.mem_range.mpr hi, hieq⟩
  have h1 := Finset.card_le_card hsub
  have h2 := Finset.card_image_le (s := Finset.range n) (f := bpos)
  rw [Finset.card_range] at h1
  rw [Finset.card_range] at h2
  omega

theorem findEmptySlot_spec (table : Nat → Option KeyValue) (mask h : Nat) :
    ∀ fuel i,
      (∃ j, i < j ∧ j ≤ i + fuel ∧ table (probePos h mask j) = none) →
      ∃ j, i < j ∧ j ≤ i + fuel ∧ table (probePos h mask j) = none
        ∧ (∀ j', i < j' → j' < j → table (probePos h mask j') ≠ none)
        ∧ findEmptySlot table mask h fuel i = some (probePos h mask j) := by
  intro fuel
  induction fuel with
  | zero =>
    intro i ⟨j, h1, h2, _⟩
    omega
  | succ fuel ih =>
    intro i ⟨j, h1, h2, h3⟩
    cases htb : table (probePos h mask (i + 1)) with
    | none =>
      refine ⟨i + 1, by omega, by omega, htb, by omega, ?_⟩
      rw [findEmptySlot, htb]
    | some kv =>
      have hji : j ≠ i + 1 := by
        intro he
        rw [he, htb] at h3
        exact Option.noConfusion h3
      obtain ⟨j', g1, g2, g3, g4, g5⟩ := ih (i + 1) ⟨j, by omega, by omega, h3⟩
      refine ⟨j', by omega, by omega, g3, ?_, ?_⟩
      · intro j'' hj1 hj2
        by_cases hj : j'' = i + 1
        · rw [hj, htb]
          exact fun hcc => Option.noConfusion hcc
        · exact g4 j'' (by omega) hj2
      · rw [findEmptySlot, htb]
        exact g5

theorem probeFind_spec (arena : List (List Nat × V)) (table : Nat → Option KeyValue)
    (mask : Nat) (key : List Nat) (h : Nat) :
    ∀ fuel i,
      (∃ j, i < j ∧ j ≤ i + fuel ∧ StopAt arena table mask key h j) →
      ∃ j, i < j ∧ j ≤ i + fuel ∧ StopAt arena table mask key h j
        ∧ (∀ j', i < j' → j' < j → ¬ StopAt arena table mask key h j')
        ∧ ((table (probePos h mask j) = none
              ∧ probeFind arena table mask key h fuel i = some (.empty (probePos h mask j)))
          ∨ (∃ kv va, table (probePos h mask j) = some kv ∧ kv.hash = h
              ∧ getValueAddrIfKeyMatch arena key kv.keyValueAddr = some va
              ∧ probeFind arena table mask key h fuel i
                  = some (.found (probePos h mask j) kv va))) := by
  intro fuel
  induction fuel with
  | zero =>
    intro i ⟨j, h1, h2, _⟩
    omega
  | succ fuel ih =>
    intro i ⟨j, h1, h2, h3⟩
    cases htb : table (probePos h mask (i + 1)) with
    | none =>
      refine ⟨i + 1, by omega, by omega, Or.inl htb, by omega, Or.inl ⟨htb, ?_⟩⟩
      simp only [probeFind, htb]
    | some kv =>
      by_cases hh : kv.hash = h
      · cases hva : getValueAddrIfKeyMatch arena key kv.keyValueAddr with
        | some va =>
          refine ⟨i + 1, by omega, by omega, Or.inr ⟨kv, va, htb, hh, hva⟩, by omega,
            Or.inr ⟨kv, va, htb, hh, hva, ?_⟩⟩
          simp only [probeFind, htb]
          rw [if_pos hh, hva]
        | none =>
          have hnostop : ¬ StopAt arena table mask key h (i + 1) := by
            intro hstop
            cases hstop with
            | inl hl => rw [htb] at hl; exact Option.noConfusion hl
            | inr hr =>
              obtain ⟨kv', va', hkv', hh', hva'⟩ := hr
              rw [htb] at hkv'
              cases hkv'
              rw [hva] at hva'
              exact Option.noConfusion hva'
          have hji : j ≠ i + 1 := fun he => hnostop (he ▸ h3)
          obtain ⟨j', g1, g2, g3, g4, g5⟩ := ih (i + 1) ⟨j, by omega, by omega, h3⟩
          refine ⟨j', by omega, by omega, g3, ?_, ?_⟩
          · intro j'' hj1 hj2
            by_cases hj : j'' = i + 1
            · rw [hj]; exact hnostop
            · exact g4 j'' (by omega) hj2
          · rcases g5 with ⟨ge1, ge2⟩ | ⟨kv₂, va₂, gf1, gf2, gf3, gf4⟩
            · refine Or.inl ⟨ge1, ?_⟩
              simp only [probeFind, htb]
              rw [if_pos hh, hva]
              exact ge2
            · refine Or.inr ⟨kv₂, va₂, gf1, gf2, gf3, ?_⟩
              simp only [probeFind, htb]
              rw [if_pos hh, hva]
              exact gf4
      · have hnostop : ¬ StopAt arena table mask key h (i + 1) := by
          intro hstop
          cases hstop with
          | inl hl => rw [htb] at hl; exact Option.noConfusion hl
          | inr hr =>
            obtain ⟨kv', va', hkv', hh', _⟩ := hr
            rw [htb] at hkv'
            cases hkv'
            exact hh hh'
        have hji : j ≠ i + 1 := fun he => hnostop (he ▸ h3)
        obtain ⟨j', g1, g2, g3, g4, g5⟩ := ih (i + 1) ⟨j, by omega, by omega, h3⟩
        refine ⟨j', by omega, by omega, g3, ?_, ?_⟩
        · intro j'' hj1 hj2
          by_cases hj : j'' = i + 1
          · rw [hj]; exact hnostop
          · exact g4 j'' (by omega) hj2
        · rcases g5 with ⟨ge1, ge2⟩ | ⟨kv₂, va₂, gf1, gf2, gf3, gf4⟩
          · refine Or.inl ⟨ge1, ?_⟩
            simp only [probeFind, htb]
            rw [if_neg hh]
            exact ge2
          · refine Or.inr ⟨kv₂, va₂, gf1, gf2, gf3, ?_⟩
            simp only [probeFind, htb]
            rw [if_neg hh]
            exact gf4

/-- Distinct model entries hold distinct keys. -/
theorem keys_inj (m : List (List Nat × V)) (hnodup : (m.map Prod.fst).Nodup)
    (i j : Nat) (e e' : List Nat × V) (hi : m[i]? = some e) (hj : m[j]? = some e')
    (heq : e.1 = e'.1) : i = j := by
  have hi' : i < m.length := by
    by_contra hc
    rw [List.getElem?_eq_none (by omega)] at hi
    exact Option.noConfusion hi
  have hj' : j < m.length := by
    by_contra hc
    rw [List.getElem?_eq_none (by omega)] at hj
    exact Option.noConfusion hj
  have hie : m[i] = e := by
    rw [List.getElem?_eq_getElem hi'] at hi
    exact Option.some.inj hi
  have hje : m[j] = e' := by
    rw [List.getElem?_eq_getElem hj'] at hj
    exact Option.some.inj hj
  have hi'' : i < (m.map Prod.fst).length := by simpa using hi'
  have hj'' : j < (m.map Prod.fst).length := by simpa using hj'
  have hmi : (m.map Prod.fst)[i] = e.1 := by
    rw [List.getElem_map]
    rw [hie]
  have hmj : (m.map Prod.fst)[j] = e'.1 := by
    rw [List.getElem_map]
    rw [hje]
  by_contra hne
  exact hne (List.Nodup.getElem_inj_iff hnodup |>.mp (by rw [hmi, hmj, heq]))

/-- Membership of a stored key in the model's key list. -/
theorem key_mem_of_getElem (m : List (List Nat × V)) (i : Nat) (e : List Nat × V)
    (hi : m[i]? = some e) : e.1 ∈ m.map Prod.fst := by
  have hi' : i < m.length := by
    by_contra hc
    rw [List.getElem?_eq_none (by omega)] at hi
    exact Option.noConfusion hi
  rw [List.getElem?_eq_getElem hi'] at hi
  have hie : m[i] = e := Option.some.inj hi
  rw [List.mem_map]
  exact ⟨e, by rw [← hie]; exact List.getElem_mem hi', rfl⟩

/-- Probing for a key that the map holds finds its bucket: the stored
`KeyValue` carries the key's dense id as both `unordered_id` and arena
address. -/
theorem probeFind_present (hashFn : List Nat → Nat) (s : ArenaHashMap V)
    (m : List (List Nat × V)) (hinv : Inv hashFn s m)
    (i : Nat) (e : List Nat × V) (hie : m[i]? = some e) :
    ∃ b, probeFind s.arena s.table s.mask e.1 (hashFn e.1) s.tableSize 0
        = some (.found b ⟨i, hashFn e.1, i⟩ i) := by
  obtain ⟨bpos, hpow, hmask, hlen, hle, hocc, hblt, hinj, htab, hreach, hemp, halen,
    harena, hnodup⟩ := hinv
  obtain ⟨ji, hj1, hj2, hj3, hj4⟩ := hreach i e hie
  have hstop : StopAt s.arena s.table s.mask e.1 (hashFn e.1) ji := by
    refine Or.inr ⟨⟨i, hashFn e.1, i⟩, i, ?_, rfl, ?_⟩
    · rw [hj3]
      exact htab i e hie
    · simp only [getValueAddrIfKeyMatch, harena i e hie]
      simp
  obtain ⟨j, hw1, hw2, hw3, hw4, hw5⟩ :=
    probeFind_spec s.arena s.table s.mask e.1 (hashFn e.1) s.tableSize 0
      ⟨ji, by omega, by omega, hstop⟩
  have hjle : j ≤ ji := by
    by_contra hc
    push_neg at hc
    exact hw4 ji (by omega) hc hstop
  rcases hw5 with ⟨hempty, _⟩ | ⟨kv, va, hkv, hh, hva, heq⟩
  · exfalso
    rcases Nat.eq_or_lt_of_le hjle with hj | hj
    · rw [hj, hj3] at hempty
      rw [htab i e hie] at hempty
      exact Option.noConfusion hempty
    · exact hj4 j (by omega) hj hempty
  · -- identify the found bucket's entry as entry i
    have hne : s.table (probePos (hashFn e.1) s.mask j) ≠ none := by
      rw [hkv]
      exact fun hcc => Option.noConfusion hcc
    have hbsome : ∃ i', i' < m.length ∧ bpos i' = probePos (hashFn e.1) s.mask j := by
      by_contra hc
      push_neg at hc
      exact hne (hemp _ fun i' hi' => hc i' hi')
    obtain ⟨i', hi', hbeq⟩ := hbsome
    have hie' : m[i']? = some m[i'] := List.getElem?_eq_getElem hi'
    have hkv' : kv = ⟨i', hashFn (m[i']).1, i'⟩ := by
      have := htab i' m[i'] hie'
      rw [hbeq, hkv] at this
      exact Option.some.inj this
    have hkeyeq : (m[i']).1 = e.1 ∧ va = i' := by
      rw [hkv'] at hva
      simp only [getValueAddrIfKeyMatch, harena i' m[i'] hie'] at hva
      by_cases hkm : (m[i']).1 = e.1
      · rw [if_pos hkm] at hva
        exact ⟨hkm, (Option.some.inj hva).symm⟩
      · rw [if_neg hkm] at hva
        exact absurd hva (fun hcc => Option.noConfusion hcc)
    have hii : i' = i := keys_inj m hnodup i' i m[i'] e hie' hie hkeyeq.1
    have hhe : hashFn (m[i']).1 = hashFn e.1 := by rw [hkeyeq.1]
    refine ⟨probePos (hashFn e.1) s.mask j, ?_⟩
    rw [heq, hkv', hkeyeq.2, hhe, hii]

/-- Probing for an absent key (in a table with room) stops at the first
empty bucket on the key's probe path. -/
theorem probeFind_absent (hashFn : List Nat → Nat) (s : ArenaHashMap V)
    (m : List (List Nat × V)) (hinv : Inv hashFn s m) (key : List Nat)
    (hnot : key ∉ m.map Prod.fst) (hroom : m.length < s.tableSize) :
    ∃ b, probeFind s.arena s.table s.mask key (hashFn key) s.tableSize 0 = some (.empty b)
      ∧ s.table b = none ∧ b < s.tableSize
      ∧ ReachInv s.table s.tableSize s.mask (hashFn key) b := by
  obtain ⟨bpos, hpow, hmask, hlen, hle, hocc, hblt, hinj, htab, hreach, hemp, halen,
    harena, hnodup⟩ := hinv
  obtain ⟨k, hk⟩ := hpow
  obtain ⟨b0, hb0lt, hb0⟩ := exists_unoccupied bpos m.length s.tableSize hroom
  have hb0none : s.table b0 = none := hemp b0 hb0
  obtain ⟨j0, hj01, hj02, hj03⟩ := by
    have := probePos_coverage (hashFn key) k b0 (by omega)
    rw [← hk, ← hmask] at this
    exact this
  have hstop : StopAt s.arena s.table s.mask key (hashFn key) j0 := by
    rw [StopAt, hj03]
    exact Or.inl hb0none
  obtain ⟨j, hw1, hw2, hw3, hw4, hw5⟩ :=
    probeFind_spec s.arena s.table s.mask key (hashFn key) s.tableSize 0
      ⟨j0, by omega, by omega, hstop⟩
  rcases hw5 with ⟨hempty, heq⟩ | ⟨kv, va, hkv, hh, hva, _⟩
  · refine ⟨probePos (hashFn key) s.mask j, heq, hempty, ?_, ?_⟩
    · rw [show s.mask = 2 ^ k - 1 from by rw [hmask, hk], hk]
      exact probePos_lt _ _ _
    · refine ⟨j, by omega, by omega, rfl, ?_⟩
      intro j' hj'1 hj'2
      have := hw4 j' (by omega) hj'2
      rw [StopAt] at this
      push_neg at this
      exact this.1
  · exfalso
    have hne : s.table (probePos (hashFn key) s.mask j) ≠ none := by
      rw [hkv]
      exact fun hcc => Option.noConfusion hcc
    have hbsome : ∃ i', i' < m.length ∧ bpos i' = probePos (hashFn key) s.mask j := by
      by_contra hc
      push_neg at hc
      exact hne (hemp _ fun i' hi' => hc i' hi')
    obtain ⟨i', hi', hbeq⟩ := hbsome
    have hie' : m[i']? = some m[i'] := List.getElem?_eq_getElem hi'
    have hkv' : kv = ⟨i', hashFn (m[i']).1, i'⟩ := by
      have := htab i' m[i'] hie'
      rw [hbeq, hkv] at this
      exact Option.some.inj this
    rw [hkv'] at hva
    simp only [getValueAddrIfKeyMatch, harena i' m[i'] hie'] at hva
    by_cases hkm : (m[i']).1 = key
    · exact hnot (hkm ▸ key_mem_of_getElem m i' m[i'] hie')
    · rw [if_neg hkm] at hva
      exact Option.noConfusion hva

/-- Findability is preserved when buckets only get filled. -/
theorem ReachInv_mono (table table' : Nat → Option KeyValue) (size mask h b : Nat)
    (hmono : ∀ b', table b' ≠ none → table' b' ≠ none)
    (hr : ReachInv table size mask h b) : ReachInv table' size mask h b := by
  obtain ⟨j, h1, h2, h3, h4⟩ := hr
  exact ⟨j, h1, h2, h3, fun j' hj1 hj2 => hmono _ (h4 j' hj1 hj2)⟩

/-- A fresh map satisfies the coupling invariant with the empty model. -/
theorem inv_new (hashFn : List Nat → Nat) (n : Nat) :
    Inv hashFn (new (V := V) n) ([] : List (List Nat × V)) := by
  refine ⟨fun _ => 0, ⟨floorLog2 n, rfl⟩, rfl, rfl, Nat.zero_le _, rfl, ?_, ?_, ?_, ?_,
    ?_, rfl, ?_, ?_⟩
  · intro i hi
    exact absurd hi (Nat.not_lt_zero i)
  · intro i j hi _ _
    exact absurd hi (Nat.not_lt_zero i)
  · intro i e he
    simp at he
  · intro i e he
    simp at he
  · intro b _
    rfl
  · intro i e he
    simp at he
  · simp

/-- Pigeonhole over a duplicate-free list of buckets. -/
theorem exists_not_mem_list (l : List Nat) (size : Nat) (hnd : l.Nodup)
    (hlen : l.length < size) : ∃ b, b < size ∧ b ∉ l := by
  by_contra hcon
  push_neg at hcon
  have hsub : Finset.range size ⊆ l.toFinset := by
    intro b hb
    rw [Finset.mem_range] at hb
    rw [List.mem_toFinset]
    exact hcon b hb
  have h1 := Finset.card_le_card hsub
  rw [Finset.card_range, List.toFinset_card_of_nodup hnd] at h1
  omega

/-- Writing back the value already stored leaves the list unchanged. -/
theorem set_of_getElem_eq {α : Type} (l : List α) :
    ∀ (i : Nat) (a : α), l[i]? = some a → l.set i a = l := by
  induction l with
  | nil =>
    intro i a h
    simp at h
  | cons x xs ih =>
    intro i a h
    cases i with
    | zero =>
      rw [List.getElem?_cons_zero] at h
      have hx := Option.some.inj h
      subst hx
      rfl
    | succ j =>
      rw [List.getElem?_cons_succ] at h
      show x :: xs.set j a = x :: xs
      rw [ih j a h]

/-- `modelMutate` on a key stored at index `i` (keys duplicate-free)
overwrites entry `i` in place and returns `i`. -/
theorem modelMutate_present (m : List (List Nat × V)) (key : List Nat)
    (up : Option V → V) :
    ∀ (i : Nat) (e : List Nat × V), (m.map Prod.fst).Nodup →
      m[i]? = some e → e.1 = key →
      modelMutate m key up = (m.set i (key, up (some e.2)), i) := by
  induction m with
  | nil =>
    intro i e _ hi _
    simp at hi
  | cons x rest ih =>
    intro i e hnd hi hk
    cases i with
    | zero =>
      rw [List.getElem?_cons_zero] at hi
      have hx := Option.some.inj hi
      show (if x.1 = key then ((key, up (some x.2)) :: rest, 0)
            else
              let p := modelMutate rest key up
              (x :: p.1, p.2 + 1)) = _
      rw [if_pos (by rw [hx]; exact hk)]
      rw [hx]
      rfl
    | succ j =>
      rw [List.getElem?_cons_succ] at hi
      have hxk : x.1 ≠ key := by
        intro hc
        rw [List.map_cons, List.nodup_cons] at hnd
        have hmem : key ∈ rest.map Prod.fst := by
          rw [← hk]
          exact key_mem_of_getElem rest j e hi
        rw [hc] at hnd
        exact hnd.1 hmem
      have hrest := ih j e (by rw [List.map_cons, List.nodup_cons] at hnd; exact hnd.2) hi hk
      show (if x.1 = key then ((key, up (some x.2)) :: rest, 0)
            else
              let p := modelMutate rest key up
              (x :: p.1, p.2 + 1)) = _
      rw [if_neg hxk, hrest]
      rfl

/-- `modelMutate` on an absent key appends it and returns the previous
number of entries. -/
theorem modelMutate_absent (key : List Nat) (up : Option V → V) :
    ∀ (m : List (List Nat × V)), key ∉ m.map Prod.fst →
      modelMutate m key up = (m ++ [(key, up none)], m.length) := by
  intro m
  induction m with
  | nil =>
    intro _
    rfl
  | cons x rest ih =>
    intro hmem
    rw [List.map_cons, List.mem_cons] at hmem
    push_neg at hmem
    have hrest := ih hmem.2
    show (if x.1 = key then ((key, up (some x.2)) :: rest, 0)
          else
            let p := modelMutate rest key up
            (x :: p.1, p.2 + 1)) = _
    rw [if_neg (fun hc => hmem.1 hc.symm), hrest]
    rfl

/-- A successful model lookup names the entry's index. -/
theorem modelFind_getElem (key : List Nat) :
    ∀ (m : List (List Nat × V)) (v : V) (i : Nat),
      modelFind m key = some (v, i) → m[i]? = some (key, v) := by
  intro m
  induction m with
  | nil =>
    intro v i h
    exact Option.noConfusion h
  | cons x rest ih =>
    intro v i h
    show (x :: rest)[i]? = some (key, v)
    by_cases hx : x.1 = key
    · rw [modelFind, if_pos hx] at h
      have h2 := Option.some.inj h
      have hv : x.2 = v := congrArg Prod.fst h2
      have hi : (0 : Nat) = i := congrArg Prod.snd h2
      rw [← hi, List.getElem?_cons_zero, ← hx, ← hv]
    · rw [modelFind, if_neg hx] at h
      cases hf : modelFind rest key with
      | none =>
        rw [hf] at h
        simp at h
      | some p =>
        rw [hf] at h
        have h2 : (p.1, p.2 + 1) = (v, i) := Option.some.inj h
        have hv : p.1 = v := congrArg Prod.fst h2
        have hi : p.2 + 1 = i := congrArg Prod.snd h2
        rw [← hi, List.getElem?_cons_succ, ← hv]
        exact ih p.1 p.2 (by rw [hf])

/-- The rehash loop places every entry of `items` (old bucket, stored
`KeyValue`) at the first empty probe position of its hash in the new
table, returning the new bucket list in order.  Placement preserves and
establishes findability. -/
theorem rehashAll_build (oldTable : Nat → Option KeyValue) (k : Nat) :
    ∀ (items : List (Nat × KeyValue)) (T : Nat → Option KeyValue) (occT : List Nat),
      (∀ pr ∈ items, oldTable pr.1 = some pr.2) →
      (∀ b, T b ≠ none ↔ b ∈ occT) →
      occT.Nodup →
      occT.length + items.length ≤ 2 ^ k →
      ∃ T' poss,
        rehashAll oldTable (2 ^ k) (2 ^ k - 1) (items.map Prod.fst) T = some (T', poss)
        ∧ poss.length = items.length
        ∧ (∀ b ∈ poss, b < 2 ^ k)
        ∧ poss.Nodup
        ∧ (∀ b ∈ poss, b ∉ occT)
        ∧ (∀ (j : Nat) (kv : KeyValue), (items.map Prod.snd)[j]? = some kv →
            ∃ b, poss[j]? = some b ∧ T' b = some kv
              ∧ ReachInv T' (2 ^ k) (2 ^ k - 1) kv.hash b)
        ∧ (∀ b, b ∉ poss → T' b = T b)
        ∧ (∀ b, T b ≠ none → T' b ≠ none) := by
  intro items
  induction items with
  | nil =>
    intro T occT hold hocc hnd hcnt
    refine ⟨T, [], rfl, rfl, ?_, List.nodup_nil, ?_, ?_, ?_, ?_⟩
    · intro b hb
      simp at hb
    · intro b hb
      simp at hb
    · intro j kv hj
      simp at hj
    · intro b _
      rfl
    · intro b h
      exact h
  | cons pr rest ih =>
    intro T occT hold hocc hnd hcnt
    obtain ⟨p, kv⟩ := pr
    have hlook : oldTable p = some kv := hold (p, kv) (List.mem_cons_self _ _)
    have hlenT : occT.length < 2 ^ k := by
      rw [List.length_cons] at hcnt
      omega
    obtain ⟨b0, hb0lt, hb0mem⟩ := exists_not_mem_list occT (2 ^ k) hnd hlenT
    have hb0none : T b0 = none := by
      by_contra hc
      exact hb0mem ((hocc b0).mp hc)
    obtain ⟨j0, hj01, hj02, hj03⟩ := probePos_coverage kv.hash k b0 hb0lt
    obtain ⟨j, hw1, hw2, hw3, hw4, hw5⟩ :=
      findEmptySlot_spec T (2 ^ k - 1) kv.hash (2 ^ k) 0
        ⟨j0, by omega, by omega, by rw [hj03]; exact hb0none⟩
    set bucket := probePos kv.hash (2 ^ k - 1) j with hbdef
    set T₁ : Nat → Option KeyValue := fun b => if b = bucket then some kv else T b with hT₁
    have hbucketlt : bucket < 2 ^ k := probePos_lt _ _ _
    have hbmem : bucket ∉ occT := by
      intro hc
      exact (hocc bucket).mpr hc hw3
    have hmono01 : ∀ b, T b ≠ none → T₁ b ≠ none := by
      intro b hb
      rw [hT₁]
      by_cases hbb : b = bucket
      · simp [hbb]
      · simpa [if_neg hbb] using hb
    have hocc₁ : ∀ b, T₁ b ≠ none ↔ b ∈ bucket :: occT := by
      intro b
      constructor
      · intro h
        by_cases hbb : b = bucket
        · rw [hbb]
          exact List.mem_cons_self _ _
        · rw [hT₁] at h
          simp only [if_neg hbb] at h
          exact List.mem_cons_of_mem _ ((hocc b).mp h)
      · intro h
        rcases List.mem_cons.mp h with hb | hb
        · rw [hT₁]
          simp [hb]
        · exact hmono01 b ((hocc b).mpr hb)
    have hreach0 : ReachInv T (2 ^ k) (2 ^ k - 1) kv.hash bucket := by
      refine ⟨j, by omega, by omega, rfl, ?_⟩
      intro j' hj1 hj2
      exact hw4 j' (by omega) hj2
    obtain ⟨T', poss, ha1, ha2, ha3, ha4, ha5, ha6, ha7, ha8⟩ :=
      ih T₁ (bucket :: occT) (fun q hq => hold q (List.mem_cons_of_mem _ hq)) hocc₁
        (List.nodup_cons.mpr ⟨hbmem, hnd⟩)
        (by rw [List.length_cons] at hcnt ⊢; omega)
    have hbposs : bucket ∉ poss := by
      intro hc
      exact ha5 bucket hc (List.mem_cons_self _ _)
    have hT'bucket : T' bucket = some kv := by
      rw [ha7 bucket hbposs, hT₁]
      simp
    refine ⟨T', bucket :: poss, ?_, ?_, ?_, ?_, ?_, ?_, ?_, ?_⟩
    · show rehashAll oldTable (2 ^ k) (2 ^ k - 1) (p :: rest.map Prod.fst) T
        = some (T', bucket :: poss)
      simp only [rehashAll, hlook, hw5, ← hbdef, ← hT₁, ha1]
    · rw [List.length_cons, List.length_cons, ha2]
    · intro b hb
      rcases List.mem_cons.mp hb with hb | hb
      · rw [hb]; exact hbucketlt
      · exact ha3 b hb
    · exact List.nodup_cons.mpr ⟨hbposs, ha4⟩
    · intro b hb
      rcases List.mem_cons.mp hb with hb | hb
      · rw [hb]; exact hbmem
      · exact fun hc => ha5 b hb (List.mem_cons_of_mem _ hc)
    · intro j' kv' hj'
      cases j' with
      | zero =>
        rw [List.map_cons, List.getElem?_cons_zero] at hj'
        have hkv' := Option.some.inj hj'
        refine ⟨bucket, List.getElem?_cons_zero, ?_, ?_⟩
        · rw [← hkv']
          exact hT'bucket
        · rw [← hkv']
          exact ReachInv_mono T₁ T' _ _ _ _ ha8
            (ReachInv_mono T T₁ _ _ _ _ hmono01 hreach0)
      | succ j'' =>
        rw [List.map_cons, List.getElem?_cons_succ] at hj'
        obtain ⟨b, hb1, hb2, hb3⟩ := ha6 j'' kv' hj'
        exact ⟨b, by rw [List.getElem?_cons_succ]; exact hb1, hb2, hb3⟩
    · intro b hb
      rw [List.mem_cons] at hb
      push_neg at hb
      rw [ha7 b hb.2, hT₁]
      simp only [if_neg hb.1]
    · intro b hb
      exact ha8 b (hmono01 b hb)

/-- `resize` succeeds on an invariant-respecting map, doubles the table
and re-establishes the invariant over the unchanged model. -/
theorem resize_inv (hashFn : List Nat → Nat) (s : ArenaHashMap V)
    (m : List (List Nat × V)) (hinv : Inv hashFn s m) :
    ∃ s', resize s = some s'
      ∧ Inv hashFn s' m
      ∧ s'.tableSize = 2 * s.tableSize
      ∧ s'.arena = s.arena ∧ s'.len = s.len := by
  obtain ⟨bpos, ⟨k, hk⟩, hmask, hlen, hle, hocc, hblt, hinj, htab, hreach, hemp, halen,
    harena, hnodup⟩ := hinv
  set hsh : Nat → Nat := fun i => (m[i]?.map (fun e => hashFn e.1)).getD 0 with hhsh
  set items : List (Nat × KeyValue) :=
    (List.range m.length).map (fun i => (bpos i, (⟨i, hsh i, i⟩ : KeyValue))) with hitems
  have hhsh_at : ∀ (i : Nat) (e : List Nat × V), m[i]? = some e → hsh i = hashFn e.1 := by
    intro i e he
    rw [hhsh]
    simp only [he, Option.map_some']
    rfl
  have hold : ∀ pr ∈ items, s.table pr.1 = some pr.2 := by
    intro pr hpr
    rw [hitems, List.mem_map] at hpr
    obtain ⟨i, hi, hpri⟩ := hpr
    rw [List.mem_range] at hi
    have hie : m[i]? = some m[i] := List.getElem?_eq_getElem hi
    rw [← hpri]
    show s.table (bpos i) = some ⟨i, hsh i, i⟩
    rw [hhsh_at i m[i] hie]
    exact htab i m[i] hie
  have hilen : items.length = m.length := by
    rw [hitems]
    simp
  have h2 : s.tableSize * 2 = 2 ^ (k + 1) := by
    rw [hk, Nat.pow_succ]
  obtain ⟨T', poss, ha1, ha2, ha3, ha4, _, ha6, ha7, _⟩ :=
    rehashAll_build s.table (k + 1) items (fun _ => none) []
      hold (by intro b; simp) List.nodup_nil
      (by rw [List.length_nil, hilen, Nat.zero_add, Nat.pow_succ]; omega)
  have hfst : items.map Prod.fst = s.occupied := by
    rw [hitems, List.map_map, hocc]
    rfl
  have hsnd : ∀ i, i < m.length → (items.map Prod.snd)[i]? = some ⟨i, hsh i, i⟩ := by
    intro i hi
    rw [hitems, List.map_map]
    rw [List.getElem?_map, List.getElem?_range hi]
    rfl
  rw [hfst] at ha1
  have hreh : rehashAll s.table (s.tableSize * 2) (s.tableSize * 2 - 1) s.occupied
      (fun _ => none) = some (T', poss) := by
    rw [h2]
    exact ha1
  have hplen : poss.length = m.length := by rw [ha2, hilen]
  refine ⟨{ s with
              tableSize := s.tableSize * 2
              table := T'
              mask := s.tableSize * 2 - 1
              occupied := poss }, ?_, ?_, ?_, rfl, rfl⟩
  · simp only [resize, hreh]
  · set bpos' : Nat → Nat := fun i => poss.getD i 0 with hbpos'
    have hbp_at : ∀ i, i < m.length → poss[i]? = some (bpos' i) := by
      intro i hi
      have hi' : i < poss.length := by omega
      rw [hbpos']
      show poss[i]? = some (poss.getD i 0)
      rw [List.getD_eq_getElem poss 0 hi', List.getElem?_eq_getElem hi']
    have hentry : ∀ (i : Nat) (e : List Nat × V), m[i]? = some e →
        ∃ b, poss[i]? = some b ∧ T' b = some ⟨i, hashFn e.1, i⟩
          ∧ ReachInv T' (2 ^ (k + 1)) (2 ^ (k + 1) - 1) (hashFn e.1) b := by
      intro i e he
      have hi : i < m.length := by
        by_contra hc
        rw [List.getElem?_eq_none (by omega)] at he
        exact Option.noConfusion he
      obtain ⟨b, hb1, hb2, hb3⟩ := ha6 i _ (hsnd i hi)
      rw [hhsh_at i e he] at hb2 hb3
      exact ⟨b, hb1, hb2, hb3⟩
    refine ⟨bpos', ⟨k + 1, h2⟩, rfl, hlen, ?_, ?_, ?_, ?_, ?_, ?_, ?_, halen,
      harena, hnodup⟩
    · show m.length ≤ s.tableSize * 2
      omega
    · -- occupied = (range n).map bpos'
      show poss = (List.range m.length).map bpos'
      refine List.ext_getElem (by rw [hplen]; simp) ?_
      intro i h1 h2'
      have hi : i < m.length := by omega
      have := hbp_at i hi
      rw [List.getElem?_eq_getElem h1] at this
      have hv := Option.some.inj this
      rw [List.getElem_map, List.getElem_range]
      exact hv
    · intro i hi
      have := hbp_at i hi
      have hmem : bpos' i ∈ poss := by
        have hi' : i < poss.length := by omega
        rw [List.getElem?_eq_getElem hi'] at this
        rw [← Option.some.inj this]
        exact List.getElem_mem hi'
      show bpos' i < s.tableSize * 2
      rw [h2]
      exact ha3 _ hmem
    · intro i j hi hj heq
      have hi' : i < poss.length := by omega
      have hj' : j < poss.length := by omega
      have h1 := hbp_at i hi
      have h2'' := hbp_at j hj
      rw [List.getElem?_eq_getElem hi'] at h1
      rw [List.getElem?_eq_getElem hj'] at h2''
      have : poss[i] = poss[j] := by
        rw [Option.some.inj h1, Option.some.inj h2'']
        exact heq
      exact (List.Nodup.getElem_inj_iff ha4).mp this
    · intro i e he
      obtain ⟨b, hb1, hb2, _⟩ := hentry i e he
      have hi : i < m.length := by
        by_contra hc
        rw [List.getElem?_eq_none (by omega)] at he
        exact Option.noConfusion he
      have := hbp_at i hi
      rw [hb1] at this
      have hbv := Option.some.inj this
      show T' (bpos' i) = some ⟨i, hashFn e.1, i⟩
      rw [← hbv]
      exact hb2
    · intro i e he
      obtain ⟨b, hb1, _, hb3⟩ := hentry i e he
      have hi : i < m.length := by
        by_contra hc
        rw [List.getElem?_eq_none (by omega)] at he
        exact Option.noConfusion he
      have := hbp_at i hi
      rw [hb1] at this
      have hbv := Option.some.inj this
      show ReachInv T' (s.tableSize * 2) (s.tableSize * 2 - 1) (hashFn e.1) (bpos' i)
      rw [h2, ← hbv]
      exact hb3
    · intro b hb
      have hbmem : b ∉ poss := by
        intro hc
        obtain ⟨i, hi, hieq⟩ := List.mem_iff_getElem.mp hc
        have hi' : i < m.length := by omega
        have := hbp_at i hi'
        rw [List.getElem?_eq_getElem hi] at this
        exact hb i hi' (by rw [← Option.some.inj this, hieq])
      show T' b = none
      rw [ha7 b hbmem]
  · show s.tableSize * 2 = 2 * s.tableSize
    omega

/-- Overwriting the value of the entry at index `i` in place preserves
the invariant. -/
theorem inv_update (hashFn : List Nat → Nat) (s : ArenaHashMap V)
    (m : List (List Nat × V)) (hinv : Inv hashFn s m) (i : Nat) (e : List Nat × V)
    (hie : m[i]? = some e) (newV : V) :
    Inv hashFn { s with arena := s.arena.set i (e.1, newV) } (m.set i (e.1, newV)) := by
  obtain ⟨bpos, hpow, hmask, hlen, hle, hocc, hblt, hinj, htab, hreach, hemp, halen,
    harena, hnodup⟩ := hinv
  have hi : i < m.length := by
    by_contra hc
    rw [List.getElem?_eq_none (by omega)] at hie
    exact Option.noConfusion hie
  have hset : ∀ (i' : Nat) (e' : List Nat × V), (m.set i (e.1, newV))[i']? = some e' →
      (i' = i ∧ e' = (e.1, newV)) ∨ (i' ≠ i ∧ m[i']? = some e') := by
    intro i' e' he'
    by_cases hii : i' = i
    · subst hii
      rw [List.getElem?_set_self' ] at he'
      rw [List.getElem?_eq_getElem hi] at he'
      exact Or.inl ⟨rfl, (Option.some.inj he').symm⟩
    · rw [List.getElem?_set_ne (fun hc => hii hc.symm)] at he'
      exact Or.inr ⟨hii, he'⟩
  refine ⟨bpos, hpow, hmask, ?_, ?_, ?_, ?_, ?_, ?_, ?_, ?_, ?_, ?_, ?_⟩
  · show s.len = (m.set i (e.1, newV)).length
    rw [List.length_set]
    exact hlen
  · rw [List.length_set]
    exact hle
  · rw [List.length_set]
    exact hocc
  · rw [List.length_set]
    exact hblt
  · rw [List.length_set]
    exact hinj
  · intro i' e' he'
    rcases hset i' e' he' with ⟨h1, h2⟩ | ⟨h1, h2⟩
    · rw [h1, h2]
      exact htab i e hie
    · exact htab i' e' h2
  · intro i' e' he'
    show ReachInv s.table s.tableSize s.mask _ (bpos i')
    rcases hset i' e' he' with ⟨h1, h2⟩ | ⟨h1, h2⟩
    · rw [h1, h2]
      exact hreach i e hie
    · exact hreach i' e' h2
  · intro b hb
    rw [List.length_set] at hb
    exact hemp b hb
  · show (s.arena.set i (e.1, newV)).length = (m.set i (e.1, newV)).length
    rw [List.length_set, List.length_set]
    exact halen
  · intro i' e' he'
    have hai : i < s.arena.length := by omega
    rcases hset i' e' he' with ⟨h1, h2⟩ | ⟨h1, h2⟩
    · rw [h1, h2]
      show (s.arena.set i (e.1, newV))[i]? = some (e.1, newV)
      rw [List.getElem?_set_self']
      rw [List.getElem?_eq_getElem hai]
      rfl
    · show (s.arena.set i (e.1, newV))[i']? = some e'
      rw [List.getElem?_set_ne (fun hc => h1 hc.symm)]
      exact harena i' e' h2
  · have hmap : (m.set i (e.1, newV)).map Prod.fst = m.map Prod.fst := by
      rw [List.map_set]
      apply set_of_getElem_eq
      rw [List.getElem?_map, hie]
      rfl
    rw [hmap]
    exact hnodup

/-- Inserting a fresh key at an empty, reachable bucket extends the
invariant by one model entry. -/
theorem inv_insert (hashFn : List Nat → Nat) (s : ArenaHashMap V)
    (m : List (List Nat × V)) (hinv : Inv hashFn s m) (key : List Nat) (v : V)
    (hmem : key ∉ m.map Prod.fst) (b : Nat) (hroom : m.length < s.tableSize)
    (hbnone : s.table b = none) (hblt' : b < s.tableSize)
    (hbreach : ReachInv s.table s.tableSize s.mask (hashFn key) b) :
    Inv hashFn
      { s with
          arena := s.arena ++ [(key, v)]
          occupied := s.occupied ++ [b]
          len := s.len + 1
          table := fun b' =>
            if b' = b then some ⟨s.arena.length, hashFn key, s.len⟩
            else s.table b' }
      (m ++ [(key, v)]) := by
  obtain ⟨bpos, hpow, hmask, hlen, hle, hocc, hblt, hinj, htab, hreach, hemp, halen,
    harena, hnodup⟩ := hinv
  set n := m.length with hn
  have hkv : (⟨s.arena.length, hashFn key, s.len⟩ : KeyValue) = ⟨n, hashFn key, n⟩ := by
    rw [halen, hlen]
  set bpos' : Nat → Nat := fun i => if i = n then b else bpos i with hbpos'
  have hbne : ∀ j, j < n → bpos j ≠ b := by
    intro j hj hc
    have hje : m[j]? = some m[j] := List.getElem?_eq_getElem hj
    have := htab j m[j] hje
    rw [hc, hbnone] at this
    exact Option.noConfusion this
  have hmono : ∀ b', s.table b' ≠ none →
      (fun b' => if b' = b then some (⟨s.arena.length, hashFn key, s.len⟩ : KeyValue)
        else s.table b') b' ≠ none := by
    intro b' hb'
    by_cases hbb : b' = b
    · simp [hbb]
    · simpa [if_neg hbb] using hb'
  have hsplit : ∀ (i : Nat) (e : List Nat × V), (m ++ [(key, v)])[i]? = some e →
      (i < n ∧ m[i]? = some e) ∨ (i = n ∧ e = (key, v)) := by
    intro i e he
    have hilen : i < n + 1 := by
      by_contra hc
      rw [List.getElem?_eq_none (by simp [← hn]; omega)] at he
      exact Option.noConfusion he
    by_cases hi : i < n
    · left
      refine ⟨hi, ?_⟩
      rw [List.getElem?_append_left (by omega)] at he
      exact he
    · right
      have hieq : i = n := by omega
      subst hieq
      rw [hn, List.getElem?_concat_length] at he
      exact ⟨rfl, (Option.some.inj he).symm⟩
  have hbp_lt : ∀ i, i < n → bpos' i = bpos i := by
    intro i hi
    rw [hbpos']
    show (if i = n then b else bpos i) = bpos i
    rw [if_neg (by omega)]
  have hbp_n : bpos' n = b := by
    rw [hbpos']
    show (if n = n then b else bpos n) = b
    rw [if_pos rfl]
  refine ⟨bpos', hpow, hmask, ?_, ?_, ?_, ?_, ?_, ?_, ?_, ?_, ?_, ?_, ?_⟩
  · show s.len + 1 = (m ++ [(key, v)]).length
    rw [List.length_append, List.length_singleton, hlen]
  · show (m ++ [(key, v)]).length ≤ s.tableSize
    rw [List.length_append, List.length_singleton]
    omega
  · show s.occupied ++ [b] = (List.range (m ++ [(key, v)]).length).map bpos'
    rw [List.length_append, List.length_singleton, List.range_succ, List.map_append]
    congr 1
    · rw [hocc]
      apply List.map_congr_left
      intro i hi
      rw [List.mem_range] at hi
      rw [hbpos']
      show bpos i = if i = n then b else bpos i
      rw [if_neg (by omega)]
    · show [b] = [bpos' n]
      rw [hbpos']
      show [b] = [if n = n then b else bpos n]
      rw [if_pos rfl]
  · intro i hi
    rw [List.length_append, List.length_singleton] at hi
    rw [hbpos']
    show (if i = n then b else bpos i) < s.tableSize
    by_cases hieq : i = n
    · rw [if_pos hieq]
      exact hblt'
    · rw [if_neg hieq]
      exact hblt i (by omega)
  · intro i j hi hj heq
    rw [List.length_append, List.length_singleton] at hi hj
    rw [hbpos'] at heq
    by_cases hieq : i = n <;> by_cases hjeq : j = n
    · omega
    · exfalso
      simp only [if_pos hieq, if_neg hjeq] at heq
      exact hbne j (by omega) (heq.symm)
    · exfalso
      simp only [if_neg hieq, if_pos hjeq] at heq
      exact hbne i (by omega) heq
    · simp only [if_neg hieq, if_neg hjeq] at heq
      exact hinj i j (by omega) (by omega) heq
  · intro i e he
    rcases hsplit i e he with ⟨h1, h2⟩ | ⟨h1, h2⟩
    · show (if bpos' i = b then some (⟨s.arena.length, hashFn key, s.len⟩ : KeyValue)
          else s.table (bpos' i)) = some ⟨i, hashFn e.1, i⟩
      rw [hbp_lt i h1, if_neg (hbne i h1)]
      exact htab i e h2
    · have he1 : e.1 = key := by rw [h2]
      show (if bpos' i = b then some (⟨s.arena.length, hashFn key, s.len⟩ : KeyValue)
          else s.table (bpos' i)) = some ⟨i, hashFn e.1, i⟩
      rw [h1, he1, hbp_n, if_pos rfl, hkv]
  · intro i e he
    rcases hsplit i e he with ⟨h1, h2⟩ | ⟨h1, h2⟩
    · show ReachInv
        (fun b' => if b' = b then some (⟨s.arena.length, hashFn key, s.len⟩ : KeyValue)
          else s.table b') s.tableSize s.mask (hashFn e.1) (bpos' i)
      rw [hbp_lt i h1]
      exact ReachInv_mono s.table _ s.tableSize s.mask (hashFn e.1) (bpos i) hmono
        (hreach i e h2)
    · have he1 : e.1 = key := by rw [h2]
      show ReachInv
        (fun b' => if b' = b then some (⟨s.arena.length, hashFn key, s.len⟩ : KeyValue)
          else s.table b') s.tableSize s.mask (hashFn e.1) (bpos' i)
      rw [h1, he1, hbp_n]
      exact ReachInv_mono s.table _ s.tableSize s.mask (hashFn key) b hmono hbreach
  · intro b' hb'
    rw [List.length_append, List.length_singleton] at hb'
    have hbb : b ≠ b' := by
      have := hb' n (by omega)
      rw [hbpos'] at this
      simpa using this
    show (if b' = b then some (⟨s.arena.length, hashFn key, s.len⟩ : KeyValue)
        else s.table b') = none
    rw [if_neg (fun hc => hbb hc.symm)]
    apply hemp
    intro i hi
    have := hb' i (by omega)
    rw [hbpos'] at this
    simpa [if_neg (by omega : ¬ i = n)] using this
  · show (s.arena ++ [(key, v)]).length = (m ++ [(key, v)]).length
    rw [List.length_append, List.length_append, halen]
  · intro i e he
    rcases hsplit i e he with ⟨h1, h2⟩ | ⟨h1, h2⟩
    · show (s.arena ++ [(key, v)])[i]? = some e
      rw [List.getElem?_append_left (by omega)]
      exact harena i e h2
    · subst h1
      rw [h2]
      show (s.arena ++ [(key, v)])[n]? = some (key, v)
      rw [show n = s.arena.length from halen.symm, List.getElem?_concat_length]
  · rw [List.map_append]
    show ((m.map Prod.fst) ++ [key]).Nodup
    rw [List.nodup_append]
    refine ⟨hnodup, List.nodup_singleton key, ?_⟩
    intro a ha hb
    rw [List.mem_singleton] at hb
    rw [hb] at ha
    exact hmem ha

/-- `mutate_or_create` refines one step of the abstract model: it
succeeds, returns the model's `unordered_id`, preserves the coupling
invariant over the mutated model, and doubles the table exactly when
the saturation check fired on entry. -/
theorem mutateOrCreate_inv (hashFn : List Nat → Nat) (s : ArenaHashMap V)
    (m : List (List Nat × V)) (hinv : Inv hashFn s m) (key : List Nat)
    (up : Option V → V) :
    ∃ s', mutateOrCreate hashFn s key up = some (s', (modelMutate m key up).2)
      ∧ Inv hashFn s' (modelMutate m key up).1
      ∧ s'.tableSize = (if s.isSaturated then 2 * s.tableSize else s.tableSize) := by
  have hstep : ∃ s₁, (if s.isSaturated then s.resize else some s) = some s₁
      ∧ Inv hashFn s₁ m
      ∧ s₁.tableSize = (if s.isSaturated then 2 * s.tableSize else s.tableSize) := by
    by_cases hsat : s.isSaturated
    · obtain ⟨s₁, hres, hinv₁, hts, _, _⟩ := resize_inv hashFn s m hinv
      exact ⟨s₁, by rw [if_pos hsat, hres], hinv₁, by rw [if_pos hsat]; exact hts⟩
    · exact ⟨s, by rw [if_neg hsat], hinv, by rw [if_neg hsat]⟩
  obtain ⟨s₁, hs₁, hinv₁, hts⟩ := hstep
  have hroom : m.length < s₁.tableSize := by
    obtain ⟨bpos0, ⟨k0, hk0⟩, _, _, hle0, hocc0, _⟩ := hinv
    have hn0 : s.occupied.length = m.length := by rw [hocc0]; simp
    have hsz1 : 1 ≤ s.tableSize := by rw [hk0]; exact Nat.one_le_two_pow
    by_cases hsat : s.isSaturated
    · rw [if_pos hsat] at hts
      omega
    · rw [if_neg hsat] at hts
      rw [isSaturated, not_lt] at hsat
      omega
  by_cases hmem : key ∈ m.map Prod.fst
  · -- key present: in-place overwrite
    obtain ⟨e, hem, hek⟩ := List.mem_map.mp hmem
    obtain ⟨i, hi, hie0⟩ := List.mem_iff_getElem.mp hem
    have hie : m[i]? = some e := by rw [List.getElem?_eq_getElem hi, hie0]
    have hnd : (m.map Prod.fst).Nodup := by
      obtain ⟨_, _, _, _, _, _, _, _, _, _, _, _, _, hnodup⟩ := hinv₁
      exact hnodup
    obtain ⟨b, hpfb⟩ := probeFind_present hashFn s₁ m hinv₁ i e hie
    rw [hek] at hpfb
    have hcell : s₁.arena[i]? = some e := by
      obtain ⟨_, _, _, _, _, _, _, _, _, _, _, _, harena, _⟩ := hinv₁
      exact harena i e hie
    have hmodel := modelMutate_present m key up i e hnd hie hek
    refine ⟨{ s₁ with arena := s₁.arena.set i (e.1, up (some e.2)) }, ?_, ?_, ?_⟩
    · show mutateOrCreate hashFn s key up = _
      simp only [mutateOrCreate, hs₁, hpfb, hcell, hmodel]
    · rw [hmodel]
      show Inv hashFn _ (m.set i (key, up (some e.2)))
      rw [← hek]
      exact inv_update hashFn s₁ m hinv₁ i e hie (up (some e.2))
    · exact hts
  · -- key absent: fresh insert
    obtain ⟨b, hpfb, hbnone, hblt', hbreach⟩ :=
      probeFind_absent hashFn s₁ m hinv₁ key hmem hroom
    have hlen₁ : s₁.len = m.length := by
      obtain ⟨_, _, _, hlen, _⟩ := hinv₁
      exact hlen
    have hmodel := modelMutate_absent key up m hmem
    refine ⟨{ s₁ with
                arena := s₁.arena ++ [(key, up none)]
                occupied := s₁.occupied ++ [b]
                len := s₁.len + 1
                table := fun b' =>
                  if b' = b then some ⟨s₁.arena.length, hashFn key, s₁.len⟩
                  else s₁.table b' }, ?_, ?_, ?_⟩
    · show mutateOrCreate hashFn s key up = _
      simp only [mutateOrCreate, hs₁, hpfb, hmodel]
      rw [hlen₁]
    · rw [hmodel]
      exact inv_insert hashFn s₁ m hinv₁ key (up none) hmem b hroom hbnone hblt' hbreach
    · exact hts

/-- `get` returns the value the model currently associates with a key. -/
theorem get_inv (hashFn : List Nat → Nat) (s : ArenaHashMap V)
    (m : List (List Nat × V)) (hinv : Inv hashFn s m) (key : List Nat) (v : V) (i : Nat)
    (hf : modelFind m key = some (v, i)) :
    get hashFn s key = some (some v) := by
  have hie : m[i]? = some (key, v) := modelFind_getElem key m v i hf
  obtain ⟨b, hpfb⟩ := probeFind_present hashFn s m hinv i (key, v) hie
  have hcell : s.arena[i]? = some (key, v) := by
    obtain ⟨_, _, _, _, _, _, _, _, _, _, _, _, harena, _⟩ := hinv
    exact harena i (key, v) hie
  show get hashFn s key = some (some v)
  simp only [get, hpfb, hcell]

/-- Running a sequence of operations refines the abstract model run. -/
theorem runOps_inv (hashFn : List Nat → Nat) :
    ∀ (ops : List (List Nat × (Option V → V))) (s : ArenaHashMap V)
      (m : List (List Nat × V)), Inv hashFn s m →
      ∃ s', runOps hashFn s ops = some (s', (modelRun m ops).2)
        ∧ Inv hashFn s' (modelRun m ops).1 := by
  intro ops
  induction ops with
  | nil =>
    intro s m hinv
    exact ⟨s, rfl, hinv⟩
  | cons op rest ih =>
    intro s m hinv
    obtain ⟨key, up⟩ := op
    obtain ⟨s₁, h1, hinv₁, _⟩ := mutateOrCreate_inv hashFn s m hinv key up
    obtain ⟨s₂, h2, hinv₂⟩ := ih s₁ (modelMutate m key up).1 hinv₁
    refine ⟨s₂, ?_, ?_⟩
    · show runOps hashFn s ((key, up) :: rest) = _
      simp only [runOps, h1, h2]
      show some (s₂, (modelMutate m key up).2 :: (modelRun (modelMutate m key up).1 rest).2)
        = some (s₂, (modelRun m ((key, up) :: rest)).2)
      rw [modelRun]
    · show Inv hashFn s₂ (modelRun m ((key, up) :: rest)).1
      rw [modelRun]
      exact hinv₂

/-- Concrete run: four `mutate_or_create` calls (two on the same key)
return the dense ids `[0, 1, 0, 2]`, and `get` sees the value produced
by the second updater for the twice-inserted key. -/
theorem runOps_example :
    ((runOps (fun l => l.foldl (fun a b => a * 31 + b) 7) (new 4 : ArenaHashMap Nat)
        [([1, 2], fun _ => 11), ([1, 2, 3], fun _ => 12),
         ([1, 2], fun o => o.getD 0 + 2), ([9], fun _ => 14)]).map Prod.snd
      = some [0, 1, 0, 2])
    ∧ ((runOps (fun l => l.foldl (fun a b => a * 31 + b) 7) (new 4 : ArenaHashMap Nat)
        [([1, 2], fun _ => 11), ([1, 2, 3], fun _ => 12),
         ([1, 2], fun o => o.getD 0 + 2), ([9], fun _ => 14)]).bind
          (fun p => get (fun l => l.foldl (fun a b => a * 31 + b) 7) p.1 [1, 2])
      = some (some 13)) := by
  constructor
  · rfl
  · rfl

/-- C2: `mutate_or_create` implements the association-list model: over
any sequence of calls starting from a fresh map, each call returns
exactly the model's `unordered_id` — dense, 0-based, in insertion order
for fresh keys, and the key's original id on re-insertion (the model
invokes `updater none` on a fresh key and `updater (some current)` on
an existing one, overwriting in place) — and afterwards `get key`
returns the value the model holds for the key, i.e. the value the last
updater for that key produced. -/
theorem c2_mutate_or_create (hashFn : List Nat → Nat)
    (ops : List (List Nat × (Option V → V))) (n : Nat) :
    ∃ s : ArenaHashMap V,
      runOps hashFn (new n) ops
        = some (s, (modelRun ([] : List (List Nat × V)) ops).2)
      ∧ ∀ (key : List Nat) (v : V) (i : Nat),
          modelFind (modelRun ([] : List (List Nat × V)) ops).1 key = some (v, i) →
          get hashFn s key = some (some v) := by
  obtain ⟨s, h1, hinv⟩ := runOps_inv hashFn ops (new n) [] (inv_new hashFn n)
  exact ⟨s, h1, fun key v i hf => get_inv hashFn s _ hinv key v i hf⟩

/-- C2 witness: the refinement instantiated at a concrete hash
function, opening with a fresh table of capacity 4 and the operation
sequence of `runOps_example`. -/
theorem c2_mutate_or_create_witness :
    ∃ s : ArenaHashMap Nat,
      runOps (fun l => l.foldl (fun a b => a * 31 + b) 7) (new 4)
        [([1, 2], fun _ => 11), ([1, 2, 3], fun _ => 12),
         ([1, 2], fun o => o.getD 0 + 2), ([9], fun _ => 14)]
        = some (s, (modelRun ([] : List (List Nat × Nat))
            [([1, 2], fun _ => 11), ([1, 2, 3], fun _ => 12),
             ([1, 2], fun o => o.getD 0 + 2), ([9], fun _ => 14)]).2)
      ∧ ∀ (key : List Nat) (v : Nat) (i : Nat),
          modelFind (modelRun ([] : List (List Nat × Nat))
            [([1, 2], fun _ => 11), ([1, 2, 3], fun _ => 12),
             ([1, 2], fun o => o.getD 0 + 2), ([9], fun _ => 14)]).1 key = some (v, i) →
          get (fun l => l.foldl (fun a b => a * 31 + b) 7) s key = some (some v) :=
  c2_mutate_or_create (fun l => l.foldl (fun a b => a * 31 + b) 7)
    [([1, 2], fun _ => 11), ([1, 2, 3], fun _ => 12),
     ([1, 2], fun o => o.getD 0 + 2), ([9], fun _ => 14)] 4

/-- C3: on entry to `mutate_or_create` the table doubles and rehashes
exactly when `occupied * 3 ≥ capacity`.  The source tests the strict
inequality `capacity < occupied * 3`, but the capacity of a reachable
map is a power of two, never divisible by 3, so the equality case is
impossible and the two conditions coincide. -/
theorem c3_resize_at_one_third (hashFn : List Nat → Nat) (s : ArenaHashMap V)
    (m : List (List Nat × V)) (hinv : Inv hashFn s m) (key : List Nat)
    (up : Option V → V) :
    (s.isSaturated ↔ s.occupied.length * 3 ≥ s.tableSize)
    ∧ ∃ s', mutateOrCreate hashFn s key up = some (s', (modelMutate m key up).2)
        ∧ s'.tableSize = (if s.occupied.length * 3 ≥ s.tableSize
            then 2 * s.tableSize else s.tableSize) := by
  have hiff : s.isSaturated ↔ s.occupied.length * 3 ≥ s.tableSize := by
    obtain ⟨_, ⟨k, hk⟩, _⟩ := hinv
    constructor
    · intro h
      rw [isSaturated] at h
      omega
    · intro h
      rw [isSaturated]
      rcases Nat.lt_or_ge s.tableSize (s.occupied.length * 3) with hlt | hge
      · exact hlt
      · exfalso
        have heq : s.occupied.length * 3 = s.tableSize := by omega
        have h3 : (3 : Nat) ∣ 2 ^ k := by
          rw [← hk, ← heq]
          exact ⟨s.occupied.length, by ring⟩
        have := Nat.Prime.dvd_of_dvd_pow Nat.prime_three h3
        norm_num at this
  obtain ⟨s', h1, _, h3⟩ := mutateOrCreate_inv hashFn s m hinv key up
  refine ⟨hiff, s', h1, ?_⟩
  by_cases hge : s.occupied.length * 3 ≥ s.tableSize
  · rw [if_pos hge]
    rw [if_pos (hiff.mpr hge)] at h3
    exact h3
  · rw [if_neg hge]
    rw [if_neg (fun hc => hge (hiff.mp hc))] at h3
    exact h3

/-- C3 witness: the resize policy applied to a fresh map of capacity 4
(not yet saturated, so the capacity stays 4). -/
theorem c3_resize_at_one_third_witness :
    ((new 4 : ArenaHashMap Nat).isSaturated ↔
        (new 4 : ArenaHashMap Nat).occupied.length * 3
          ≥ (new 4 : ArenaHashMap Nat).tableSize)
    ∧ ∃ s', mutateOrCreate (fun _ => 0) (new 4 : ArenaHashMap Nat) [7] (fun _ => 5)
          = some (s', (modelMutate ([] : List (List Nat × Nat)) [7] (fun _ => 5)).2)
        ∧ s'.tableSize
            = (if (new 4 : ArenaHashMap Nat).occupied.length * 3
                  ≥ (new 4 : ArenaHashMap Nat).tableSize
               then 2 * (new 4 : ArenaHashMap Nat).tableSize
               else (new 4 : ArenaHashMap Nat).tableSize) :=
  c3_resize_at_one_third (fun _ => 0) (new 4) [] (inv_new (fun _ => 0) 4) [7] (fun _ => 5)

end ArenaHashMap

end Tantivy
